import Mathlib

/-!
Verification development for the command-execution and MCP-registry core of
the bedrock-engineer repository.

Namespace `Cmd` embeds `src/main/api/command/commandService.ts`
(`CommandService`): command allow-list matching, output classification and
the process-session state transitions of `executeCommand` / `sendInput` /
`stopProcess`.

Namespace `Mcp` embeds `src/preload/mcp/index.ts`: configuration-identity
hashing, change detection, `initMcpFromAgentConfig` and
`tryExecuteMcpTool`.

Namespace `McpHeap` gives an explicit-store model of `getMcpToolSpecs`'
deep-copy loop, so that caller-side mutation of returned descriptors can be
expressed.

Strings are handled through `String.data : List Char`; JavaScript's
`String.prototype.split`, `includes`, `toLowerCase` and the two prompt
regexes are embedded as executable functions on `List Char`.
-/

namespace Cmd

/-- JS `str.split(sep)` for a single-character separator, on char lists.
`split` never returns an empty array: splitting `""` yields `[""]`. -/
def splitChar (sep : Char) : List Char → List (List Char)
  | [] => [[]]
  | c :: rest =>
    let r := splitChar sep rest
    if c = sep then [] :: r
    else
      match r with
      | [] => [[c]]
      | h :: t => (c :: h) :: t

/-- JS `hay.includes(needle)` (substring containment). -/
def containsSub (needle : List Char) : List Char → Bool
  | [] => needle.isEmpty
  | c :: t => needle.isPrefixOf (c :: t) || containsSub needle t

/-- JS `hay.includes(needle)` on `String`s. -/
def strIncludes (hay needle : String) : Bool :=
  containsSub needle.data hay.data

/-- JS `toLowerCase` modelled character-wise. -/
def lowerList (l : List Char) : List Char := l.map Char.toLower

/-- The `CommandConfig` entry type `{ pattern, description }` of
`types.ts` (named `CommandConfig` there; the command service imports it as
`CommandPatternConfig`). -/
structure CommandPatternConfig where
  pattern : String
  description : String
deriving DecidableEq

/-- The execution config consumed by `CommandService`: `allowedCommands`
may be `undefined` (modelled as `none`) plus the shell path. -/
structure CommandConfig where
  allowedCommands : Option (List CommandPatternConfig)
  shell : String
deriving DecidableEq

/-- Result of `parseCommandPattern`: first token, remaining tokens, and
whether any token is the literal `*`. -/
structure CommandPattern where
  command : List Char
  args : List (List Char)
  wildcard : Bool
deriving DecidableEq

/-- `CommandService.parseCommandPattern` (commandService.ts lines 68-77):
split on single spaces; `command` is the first token, `args` the rest,
`wildcard` is true when some token equals `*`. -/
def parseCommandPattern (commandStr : String) : CommandPattern :=
  let parts := splitChar ' ' commandStr.data
  { command := parts.headD []
    args := parts.tail
    wildcard := parts.any (fun part => decide (part = ['*'])) }

/-- The predicate passed to `allowedCommands.some` inside
`CommandService.isCommandAllowed` (lines 85-106): command tokens must be
equal; a wildcard pattern then matches immediately; otherwise argument
counts must be equal and each pattern argument must be `*` or literally
equal to the requested argument at the same index. -/
def matchesAllowedCommand (executeParts : CommandPattern)
    (allowedCmd : CommandPatternConfig) : Bool :=
  let allowedParts := parseCommandPattern allowedCmd.pattern
  if ¬ (allowedParts.command = executeParts.command) then false
  else if allowedParts.wildcard then true
  else if ¬ (allowedParts.args.length = executeParts.args.length) then false
  else (allowedParts.args.zip executeParts.args).all
    (fun ae => decide (ae.1 = ['*']) || decide (ae.1 = ae.2))

/-- `CommandService.isCommandAllowed` (lines 79-107): parse the requested
line, default the allow-list to `[]` when `undefined`, and test the
patterns with `some`. -/
def isCommandAllowed (config : CommandConfig) (commandToExecute : String) : Bool :=
  let executeParts := parseCommandPattern commandToExecute
  let allowedCommands := config.allowedCommands.getD []
  allowedCommands.any (fun allowedCmd => matchesAllowedCommand executeParts allowedCmd)

/-- The `serverReadyPatterns` list (lines 38-48). -/
def serverReadyPatterns : List String :=
  ["listening", "ready", "started", "running", "live",
   "compiled successfully", "compiled", "waiting for file changes",
   "development server running"]

/-- The `errorPatterns` list (lines 51-62). -/
def errorPatterns : List String :=
  ["EADDRINUSE", "Error:", "error:", "ERR!", "app crashed",
   "Cannot find module", "command not found", "Failed to compile",
   "Syntax error:", "TypeError:"]

/-- `CommandService.isServerReady` (lines 140-144): case-insensitive
substring match against the readiness keywords. -/
def isServerReady (output : String) : Bool :=
  serverReadyPatterns.any (fun pattern =>
    containsSub (lowerList pattern.data) (lowerList output.data))

/-- `CommandService.checkForErrors` (lines 147-161): any error pattern as a
substring of either stream, plus the crash-state check on stdout. -/
def checkForErrors (stdout stderr : String) : Bool :=
  if errorPatterns.any (fun pattern =>
      strIncludes stdout pattern || strIncludes stderr pattern) then
    true
  else if strIncludes stdout "app crashed" &&
      !(strIncludes stdout "waiting for file changes") then
    true
  else
    false

/-- A character matched by `.` in a JS regex (anything but a line
terminator). -/
def regexDot (c : Char) : Bool :=
  !(c = '\n' || c = '\r' || c = '\u2028' || c = '\u2029')

/-- A JS line terminator, as used by `$` under the `m` flag. -/
def lineTerm (c : Char) : Bool :=
  c = '\n' || c = '\r' || c = '\u2028' || c = '\u2029'

/-- The inquirer-style probe `/\? .+\?.*$/m` (lines 21-27): somewhere in
the text, `?` then a space, then at least one `.`-character, then another
`?` on the same line. -/
def inquirerScan : List Char → Bool
  | [] => false
  | c :: t =>
    (decide (c = '?') &&
      (match t with
       | ' ' :: r => ((r.takeWhile regexDot).drop 1).contains '?'
       | _ => false)) || inquirerScan t

/-- The basic-prompt probe `/[^:]+: $/m` (lines 28-34): a non-colon
character, then `: `, with the space immediately before a line end. -/
def basicPromptScan : List Char → Bool
  | [] => false
  | c :: t =>
    (!(decide (c = ':')) &&
      (match t with
       | ':' :: ' ' :: rest => rest.isEmpty || lineTerm (rest.headD ' ')
       | _ => false)) || basicPromptScan t

/-- `CommandService.isWaitingForInput` (lines 110-118), restricted to the
`isWaiting` boolean: the first probe that matches wins, so the flag is the
disjunction of the two probes. -/
def isWaitingForInput (output : String) : Bool :=
  inquirerScan output.data || basicPromptScan output.data

/-- Association-list update with JS `Map.set` semantics: replace in place
when the key is present, append otherwise. -/
def mapSet {β : Type} (m : List (Nat × β)) (k : Nat) (v : β) : List (Nat × β) :=
  match m with
  | [] => [(k, v)]
  | kv :: rest => if kv.1 = k then (k, v) :: rest else kv :: mapSet rest k v

/-- Association-list removal with JS `Map.delete` semantics. -/
def mapDelete {β : Type} (m : List (Nat × β)) (k : Nat) : List (Nat × β) :=
  m.filter (fun kv => !(decide (kv.1 = k)))

/-- The per-pid `output` record `{ stdout, stderr, code }` of
`ProcessState`. -/
structure ProcessOutput where
  stdout : String
  stderr : String
  code : Option Int
deriving DecidableEq

/-- The `ProcessState` record tracked in `processStates`; the
`ChildProcess` handle is modelled by its presence (`process : Bool`,
set right after spawn and tested by `sendInput`). -/
structure ProcessState where
  isRunning : Bool
  hasError : Bool
  output : ProcessOutput
  process : Bool
deriving DecidableEq

/-- `DetachedProcessInfo` entries of the `runningProcesses` table. -/
structure DetachedProcessInfo where
  pid : Nat
  command : String
  timestamp : Nat
deriving DecidableEq

/-- The two process-wide tables of `CommandService`. -/
structure ServiceState where
  runningProcesses : List (Nat × DetachedProcessInfo)
  processStates : List (Nat × ProcessState)
deriving DecidableEq

/-- The local closure state of one `executeCommand` promise:
`currentOutput`, `currentError` and the `isCompleted` flag. -/
structure ExecSession where
  pid : Nat
  command : String
  currentOutput : String
  currentError : String
  isCompleted : Bool
deriving DecidableEq

/-- How the `executeCommand` promise settles on a given event. -/
inductive ExecResolution where
  | success (stdout stderr : String) (exitCode : Int) (requiresInput : Bool)
  | failure (message : String)
deriving DecidableEq

/-- `CommandService.initializeProcessState` (lines 120-130). -/
def initializeProcessState (svc : ServiceState) (pid : Nat) : ServiceState :=
  { svc with
      processStates := mapSet svc.processStates pid ⟨true, false, ⟨"", "", none⟩, false⟩ }

/-- `CommandService.updateProcessState` (lines 132-137): merge into the
existing state when the pid is tracked, otherwise do nothing. -/
def updateProcessState (svc : ServiceState) (pid : Nat)
    (updates : ProcessState → ProcessState) : ServiceState :=
  match svc.processStates.lookup pid with
  | none => svc
  | some currentState =>
    { svc with processStates := mapSet svc.processStates pid (updates currentState) }

/-- The `cleanup` closure of `executeCommand` (lines 200-203): purge the
pid from both tables. -/
def cleanupTables (svc : ServiceState) (pid : Nat) : ServiceState :=
  { runningProcesses := mapDelete svc.runningProcesses pid
    processStates := mapDelete svc.processStates pid }

/-- The spawn bookkeeping of `executeCommand` (lines 183-198): initialize
the process state, register the `DetachedProcessInfo`, store the process
handle, and start with empty output buffers. -/
def spawnRegister (svc : ServiceState) (pid : Nat) (command : String)
    (timestamp : Nat) : ServiceState × ExecSession :=
  let svc := initializeProcessState svc pid
  let svc :=
    { svc with
        runningProcesses := mapSet svc.runningProcesses pid ⟨pid, command, timestamp⟩ }
  let svc := updateProcessState svc pid (fun st => { st with process := true })
  (svc, ⟨pid, command, "", "", false⟩)

/-- The `completeWithError` closure of `executeCommand` (lines 205-211):
when not yet completed, mark completed, purge both tables and reject. -/
def completeWithError (svc : ServiceState) (sess : ExecSession)
    (error : String) : ServiceState × ExecSession × Option ExecResolution :=
  if sess.isCompleted then (svc, sess, none)
  else (cleanupTables svc sess.pid, { sess with isCompleted := true },
        some (.failure error))

/-- The `completeWithSuccess` closure of `executeCommand` (lines 213-268):
a waiting-for-input or server-ready output resolves while the session
stays registered and `isCompleted` stays false; otherwise the session is
purged (normal completion). -/
def completeWithSuccess (svc : ServiceState) (sess : ExecSession) :
    ServiceState × ExecSession × Option ExecResolution :=
  if sess.isCompleted then (svc, sess, none)
  else
    match svc.processStates.lookup sess.pid with
    | none => (svc, sess, some (.failure "Process state not found"))
    | some state =>
      if isWaitingForInput sess.currentOutput then
        (svc, sess, some (.success sess.currentOutput sess.currentError 0 true))
      else if isServerReady sess.currentOutput then
        (svc, sess, some (.success sess.currentOutput sess.currentError 0 false))
      else
        (cleanupTables svc sess.pid, { sess with isCompleted := true },
         some (.success sess.currentOutput sess.currentError
                (state.output.code.getD 0) false))

/-- The stdout `data` handler of `executeCommand` (lines 270-293): append
the chunk, record it, fail fast on an error pattern, else resolve when the
cumulative output looks waiting or server-ready. -/
def stdoutDataHandler (svc : ServiceState) (sess : ExecSession)
    (chunk : String) : ServiceState × ExecSession × Option ExecResolution :=
  let sess := { sess with currentOutput := sess.currentOutput ++ chunk }
  match svc.processStates.lookup sess.pid with
  | none => (svc, sess, none)
  | some _ =>
    let svc := updateProcessState svc sess.pid
      (fun st => { st with output := { st.output with stdout := sess.currentOutput } })
    if checkForErrors chunk "" then
      let svc := updateProcessState svc sess.pid (fun st => { st with hasError := true })
      completeWithError svc sess
        ("Command failed: \n" ++ sess.currentOutput ++ "\n" ++ sess.currentError)
    else if isWaitingForInput sess.currentOutput || isServerReady sess.currentOutput then
      completeWithSuccess svc sess
    else
      (svc, sess, none)

/-- The stderr `data` handler of `executeCommand` (lines 295-311). -/
def stderrDataHandler (svc : ServiceState) (sess : ExecSession)
    (chunk : String) : ServiceState × ExecSession × Option ExecResolution :=
  let sess := { sess with currentError := sess.currentError ++ chunk }
  match svc.processStates.lookup sess.pid with
  | none => (svc, sess, none)
  | some _ =>
    let svc := updateProcessState svc sess.pid
      (fun st => { st with output := { st.output with stderr := sess.currentError } })
    if checkForErrors "" chunk then
      let svc := updateProcessState svc sess.pid (fun st => { st with hasError := true })
      completeWithError svc sess
        ("Command failed: \n" ++ sess.currentOutput ++ "\n" ++ sess.currentError)
    else
      (svc, sess, none)

/-- The `exit` handler of `executeCommand` (lines 319-333): mark the state
not running and record the exit code; on a clean zero exit with no error
pattern reuse `completeWithSuccess`, otherwise reject unless already
completed. (`code` is `none` when the process died from a signal; JS
`code || 0` stores `0` then.) -/
def exitHandler (svc : ServiceState) (sess : ExecSession) (code : Option Int) :
    ServiceState × ExecSession × Option ExecResolution :=
  match svc.processStates.lookup sess.pid with
  | none => (svc, sess, none)
  | some _ =>
    let svc := updateProcessState svc sess.pid
      (fun st =>
        { st with
            isRunning := false
            output := { st.output with code := some (codeOr0 code) } })
    if !(checkForErrors sess.currentOutput sess.currentError) && code = some 0 then
      completeWithSuccess svc sess
    else if !sess.isCompleted then
      completeWithError svc sess
        ("Process exited with code " ++ codeText code ++ "\n" ++
         sess.currentOutput ++ "\n" ++ sess.currentError)
    else (svc, sess, none)
where
  /-- JS `code || 0` (both `null` and `0` give `0`). -/
  codeOr0 : Option Int → Int
    | none => 0
    | some n => n
  /-- Rendering of the nullable exit code in the rejection message. -/
  codeText : Option Int → String
    | none => "null"
    | some n => toString n

/-- The guard of `CommandService.sendInput` (lines 360-364): the call
throws `No running process found` unless the pid has a tracked state whose
`process` handle is present. -/
def sendInputEligible (svc : ServiceState) (pid : Nat) : Bool :=
  match svc.processStates.lookup pid with
  | none => false
  | some state => state.process

/-- `CommandService.stopProcess` (lines 490-502). `killError` models
whether `process.kill(-pid)` throws (and with which message). Returns the
resulting tables, whether a kill was attempted, and the settled outcome;
on a kill failure the deletes are never reached, so the tables are
returned unchanged and the error is rethrown wrapped. -/
def stopProcess (svc : ServiceState) (pid : Nat) (killError : Option String) :
    ServiceState × Bool × Except String Unit :=
  match svc.runningProcesses.lookup pid with
  | none => (svc, false, .ok ())
  | some _ =>
    match killError with
    | none =>
      (⟨mapDelete svc.runningProcesses pid, mapDelete svc.processStates pid⟩,
       true, .ok ())
    | some errorMessage =>
      (svc, true,
       .error ("Failed to stop process " ++ toString pid ++ ": " ++ errorMessage))

end Cmd

namespace Mcp

/-- Lexicographic comparison of char lists by code point: the default
(argument-free) JS `Array.prototype.sort` string order, used for the
cached name list. This order never ties distinct strings. It does *not*
embed `localeCompare`, whose locale-dependent collation may tie distinct
strings; that comparator is a parameter below. -/
def charListLe : List Char → List Char → Bool
  | [], _ => true
  | _ :: _, [] => false
  | a :: as, b :: bs =>
    if a < b then true
    else if b < a then false
    else charListLe as bs

/-- String comparison via `charListLe` on the underlying character data. -/
def strLe (a b : String) : Bool := charListLe a.data b.data

/-- Three-way code-point comparison of char lists. -/
def charListCompare : List Char → List Char → Ordering
  | [], [] => .eq
  | [], _ :: _ => .lt
  | _ :: _, [] => .gt
  | a :: as, b :: bs =>
    if a < b then .lt
    else if b < a then .gt
    else charListCompare as bs

/-- Three-way code-point comparison of strings: one concrete, tie-free
realization of `localeCompare` (adequate when no configured names are
locale-equivalent, e.g. plain ASCII names). -/
def strCompare (a b : String) : Ordering := charListCompare a.data b.data

/-- `McpServerConfig` (src/types/agent-chat.ts). `command` and `args` are
`Option`s because the values arrive from JSON configuration at runtime and
may be missing even though the TypeScript type declares them — that is
exactly what the zod `configSchema` validation in `index.ts` guards
against. `env` is the optional environment record, as an ordered list of
key/value pairs (JS object insertion order). -/
structure McpServerConfig where
  name : String
  description : String
  command : Option String
  args : Option (List String)
  env : Option (List (String × String))
deriving DecidableEq

/-- The essential-settings projection built inside `generateConfigHash`
(index.ts lines 38-44): `{name, command, args, ...(env if nonempty)}`;
`description` is excluded. -/
structure EssentialConfig where
  name : String
  command : Option String
  args : Option (List String)
  env : Option (List (String × String))
deriving DecidableEq

/-- Projection of one server config to its essential settings; the `env`
field is kept only when present and nonempty. -/
def essentialOf (server : McpServerConfig) : EssentialConfig :=
  { name := server.name
    command := server.command
    args := server.args
    env :=
      match server.env with
      | some e => if e.length > 0 then some e else none
      | none => none }

/-- The value of `generateConfigHash`: the literal string `'empty'` or the
`JSON.stringify` of the sorted essential configs. `JSON.stringify` on this
fixed shape is injective and the hash is only ever compared for equality,
so it is modelled as the essential-config list itself. -/
inductive ConfigHash where
  | empty
  | json (configs : List EssentialConfig)
deriving DecidableEq

/-- The `[...servers].sort((a, b) => a.name.localeCompare(b.name))` step of
`generateConfigHash`. `localeCompare` is ICU collation — locale-dependent,
and allowed to return 0 (`Ordering.eq`) for *distinct* strings (canonically
equivalent names such as NFC and NFD forms, or names differing only by
ignorable characters) — so the comparator is an explicit parameter. A
stable sort under a consistent comparator has a unique result; JS `sort`
is stable, as is insertion sort, which keeps `a` before `b` whenever the
comparator does not place `a` strictly after `b`. -/
def sortServersByName (localeCompare : String → String → Ordering)
    (servers : List McpServerConfig) : List McpServerConfig :=
  List.insertionSort
    (fun a b => ¬ (localeCompare a.name b.name = Ordering.gt)) servers

/-- `generateConfigHash` (index.ts lines 29-47), parameterized by the
`localeCompare` comparator its sort uses. -/
def generateConfigHash (localeCompare : String → String → Ordering)
    (servers : List McpServerConfig) : ConfigHash :=
  if servers.length = 0 then .empty
  else .json ((sortServersByName localeCompare servers).map essentialOf)

/-- JS `names.sort()` on the name list (default string order). -/
def sortNames (names : List String) : List String :=
  List.insertionSort (fun a b => strLe a b = true) names

/-- The module-level cache `lastMcpServerConfigHash` /
`lastMcpServerLength` / `lastMcpServerNames` (index.ts lines 20-22),
gathered into one record. The hash starts as `null` (`none`). -/
structure McpCache where
  lastHash : Option ConfigHash
  lastLength : Nat
  lastNames : List String
deriving DecidableEq

/-- The initial cache: `null` hash, zero length, empty name list. -/
def initialCache : McpCache := ⟨none, 0, []⟩

/-- `hasConfigChanged` (index.ts lines 53-79): length check, then sorted
name-list comparison (`every` under a length guard), then hash
comparison. -/
def hasConfigChanged (localeCompare : String → String → Ordering)
    (cache : McpCache) (servers : List McpServerConfig) : Bool :=
  if ¬ (servers.length = cache.lastLength) then true
  else if servers.length = 0 && cache.lastLength = 0 then false
  else
    let currentNames := sortNames (servers.map (fun s => s.name))
    let sameNames := decide (currentNames.length = cache.lastNames.length) &&
      (currentNames.zip cache.lastNames).all (fun ab => decide (ab.1 = ab.2))
    if !sameNames then true
    else decide (¬ (some (generateConfigHash localeCompare servers) = cache.lastHash))

/-- `updateConfigCache` (index.ts lines 84-89). -/
def updateConfigCache (localeCompare : String → String → Ordering)
    (servers : List McpServerConfig) : McpCache :=
  { lastHash := some (generateConfigHash localeCompare servers)
    lastLength := servers.length
    lastNames := sortNames (servers.map (fun s => s.name)) }

/-- A tool spec as advertised by an MCP client; only the `name` field is
relevant to lookup (`toolSpec?.name`), and both levels may be absent. -/
structure McpToolSpec where
  name : Option String
deriving DecidableEq

/-- A tool entry `{ toolSpec?: { name?: ... } }`. -/
structure McpTool where
  toolSpec : Option McpToolSpec
deriving DecidableEq

/-- One entry of the module-level `clients` array: the configured server
name together with the connected client's advertised tools. -/
structure McpClient where
  name : String
  tools : List McpTool
deriving DecidableEq

/-- The module-level mutable state of `index.ts`: the `clients` array and
the configuration cache. -/
structure McpRegistry where
  clients : List McpClient
  cache : McpCache
deriving DecidableEq

/-- JS object-property assignment for the `reduce` building `configData`:
replace in place when the key exists, append otherwise. -/
def recordSet {β : Type} (m : List (String × β)) (k : String) (v : β) :
    List (String × β) :=
  match m with
  | [] => [(k, v)]
  | kv :: rest => if kv.1 = k then (k, v) :: rest else kv :: recordSet rest k v

/-- The `mcpServers.reduce(...)` step (index.ts lines 146-158): a record
keyed by server name; a duplicated name overwrites the earlier entry. -/
def buildConfigData (servers : List McpServerConfig) :
    List (String × McpServerConfig) :=
  servers.foldl (fun acc server => recordSet acc server.name server) []

/-- zod validation of one record entry: `command` must be a string and
`args` an array of strings (missing values fail `safeParse`); the
defaulted `env` record always validates. -/
def validMcpEntry (server : McpServerConfig) : Bool :=
  server.command.isSome && server.args.isSome

/-- The `configSchema.safeParse(configData).success` check (index.ts lines
160-164) over the name-keyed record. -/
def validateConfigData (servers : List McpServerConfig) : Bool :=
  (buildConfigData servers).all (fun kv => validMcpEntry kv.2)

/-- How one call of `initMcpFromAgentConfig` returns. -/
inductive InitOutcome where
  | skipped
  | activated
  | failed
deriving DecidableEq

/-- `initMcpFromAgentConfig` (index.ts lines 92-206) as a single-call state
transformer. `launch` is the `MCPClient.fromCommand` oracle: `none` when
the client fails to start (such a server is logged and omitted), `some
tools` on success. The in-flight concurrency guard is outside this
single-call model. On the unchanged fast path nothing happens; otherwise
existing clients are cleaned up, an empty config set records the empty
cache, a validation failure throws after resetting the cache to the
empty-configuration baseline, and otherwise every launchable server
becomes a client and the cache records the new configuration. -/
def initMcpFromAgentConfig (localeCompare : String → String → Ordering)
    (launch : McpServerConfig → Option (List McpTool))
    (reg : McpRegistry) (mcpServers : List McpServerConfig) :
    McpRegistry × InitOutcome :=
  if !(hasConfigChanged localeCompare reg.cache mcpServers) then (reg, .skipped)
  else if mcpServers.length = 0 then
    (⟨[], updateConfigCache localeCompare []⟩, .activated)
  else if validateConfigData mcpServers then
    (⟨mcpServers.filterMap (fun serverConfig =>
        (launch serverConfig).map (fun tools => ⟨serverConfig.name, tools⟩))
     , updateConfigCache localeCompare mcpServers⟩, .activated)
  else
    (⟨[], updateConfigCache localeCompare []⟩, .failed)

/-- The JS comparison `tool.toolSpec?.name == toolName`: `undefined` at
either level compares unequal to a string. -/
def toolSpecNameIs (tool : McpTool) (toolName : String) : Bool :=
  match tool.toolSpec with
  | none => false
  | some spec =>
    match spec.name with
    | none => false
    | some n => decide (n = toolName)

/-- The structured result of `tryExecuteMcpTool`. -/
structure McpToolResult where
  found : Bool
  success : Bool
  name : String
  error : Option String
  message : String
  result : Option String
deriving DecidableEq

/-- The early-exit result when no MCP servers are configured (index.ts
lines 236-245). -/
def noServersResult (toolName : String) : McpToolResult :=
  { found := false
    success := false
    name := "mcp_" ++ toolName
    error := some "No MCP servers configured"
    message := "This agent does not have any MCP servers configured. Please add MCP server configuration in agent settings."
    result := none }

/-- The structured not-found result (index.ts lines 254-263). -/
def toolNotFoundResult (toolName : String) : McpToolResult :=
  { found := false
    success := false
    name := "mcp_" ++ toolName
    error := some ("MCP tool " ++ toolName ++ " not found")
    message := "No MCP server provides a tool named \"" ++ toolName ++ "\""
    result := none }

/-- `tryExecuteMcpTool` (index.ts lines 230-289). `call` is the
`client.callTool` oracle. The function first handles the no-configuration
case, then runs `initMcpFromAgentConfig` (whose validation error
propagates as `Except.error`), then looks for a client advertising the
exact un-prefixed tool name and wraps call success or failure into a
structured result. -/
def tryExecuteMcpTool (localeCompare : String → String → Ordering)
    (launch : McpServerConfig → Option (List McpTool))
    (call : McpClient → String → String → Except String String)
    (reg : McpRegistry) (toolName : String) (input : String)
    (mcpServers : Option (List McpServerConfig)) :
    Except String (McpRegistry × McpToolResult) :=
  match mcpServers with
  | none => .ok (reg, noServersResult toolName)
  | some servers =>
    if servers.length = 0 then .ok (reg, noServersResult toolName)
    else
      let initResult := initMcpFromAgentConfig localeCompare launch reg servers
      if initResult.2 = .failed then .error "Invalid MCP server configuration"
      else
        let reg := initResult.1
        match reg.clients.find? (fun client =>
            (client.tools.find? (fun tool => toolSpecNameIs tool toolName)).isSome) with
        | none => .ok (reg, toolNotFoundResult toolName)
        | some client =>
          match call client toolName input with
          | .ok res =>
            .ok (reg,
              { found := true, success := true, name := "mcp_" ++ toolName
                error := none, message := "MCP tool execution successful"
                result := some res })
          | .error errorMessage =>
            .ok (reg,
              { found := true, success := false, name := "mcp_" ++ toolName
                error := some errorMessage
                message := "Error executing MCP tool \"" ++ toolName ++ "\": " ++ errorMessage
                result := none })

end Mcp

namespace McpHeap

/-- A store cell of the object-graph model used for `getMcpToolSpecs`: a
tool object holding a (possibly absent) reference to its `toolSpec`
object, or a `toolSpec` object holding its (possibly absent) `name`. -/
inductive HCell where
  | toolCell (toolSpec : Option Nat)
  | specCell (name : Option String)
deriving DecidableEq

/-- A heap: an address-keyed store plus the next fresh address. -/
structure Heap where
  mem : List (Nat × HCell)
  next : Nat
deriving DecidableEq

/-- Read a cell. -/
def Heap.lookup (h : Heap) (a : Nat) : Option HCell := h.mem.lookup a

/-- Allocate a fresh cell (returns the new heap and the fresh address). -/
def Heap.alloc (h : Heap) (c : HCell) : Heap × Nat :=
  (⟨h.mem ++ [(h.next, c)], h.next + 1⟩, h.next)

/-- Overwrite the cell at an address (JS field assignment). -/
def Heap.write (h : Heap) (a : Nat) (c : HCell) : Heap :=
  ⟨Cmd.mapSet h.mem a c, h.next⟩

/-- Every allocated address lies below `next` (so `alloc` is fresh). -/
def heapWfB (h : Heap) : Bool :=
  h.mem.all (fun kv => decide (kv.1 < h.next))

/-- A well-formed tool object at `a`: allocated, a tool cell, and its
spec pointer (when present) allocated and pointing at a spec cell. -/
def toolWfB (h : Heap) (a : Nat) : Bool :=
  decide (a < h.next) &&
  match h.lookup a with
  | some (.toolCell none) => true
  | some (.toolCell (some sa)) =>
    decide (sa < h.next) &&
    (match h.lookup sa with
     | some (.specCell _) => true
     | _ => false)
  | _ => false

/-- `JSON.parse(JSON.stringify(tool))` (index.ts line 221): produce a
structurally equal copy of the tool object at `a` at entirely fresh
addresses. -/
def cloneTool (h : Heap) (a : Nat) : Heap × Nat :=
  match h.lookup a with
  | some (.toolCell (some sa)) =>
    let specCopy : HCell :=
      match h.lookup sa with
      | some (.specCell n) => .specCell n
      | _ => .specCell none
    let r1 := h.alloc specCopy
    r1.1.alloc (.toolCell (some r1.2))
  | _ => h.alloc (.toolCell none)

/-- The in-place rename on the *clone* (index.ts lines 222-224):
`if (clonedTool.toolSpec?.name) clonedTool.toolSpec.name = mcp_ + name`;
JS truthiness means an empty-string name is left alone. -/
def renameCloned (h : Heap) (a : Nat) : Heap :=
  match h.lookup a with
  | some (.toolCell (some sa)) =>
    match h.lookup sa with
    | some (.specCell (some n)) =>
      if ¬ (n = "") then h.write sa (.specCell (some ("mcp_" ++ n))) else h
    | _ => h
  | _ => h

/-- Clone one tool and apply the rename to the clone. -/
def processTool (h : Heap) (a : Nat) : Heap × Nat :=
  let r := cloneTool h a
  (renameCloned r.1 r.2, r.2)

/-- `client.tools.map(...)` over a list of tool addresses. -/
def processTools (h : Heap) : List Nat → Heap × List Nat
  | [] => (h, [])
  | a :: as =>
    let r1 := processTool h a
    let r2 := processTools r1.1 as
    (r2.1, r1.2 :: r2.2)

/-- `getMcpToolSpecs` (index.ts lines 208-228) over the flattened tool
addresses of the active clients: returns the heap after all clones and the
addresses of the returned (deep-copied, renamed) descriptors. -/
def getMcpToolSpecsH (h : Heap) (clients : List (List Nat)) : Heap × List Nat :=
  processTools h clients.flatten

/-- The value denoted by a tool address: `none` for a dangling structure,
otherwise the optional spec with its optional name. -/
def denoteTool (h : Heap) (a : Nat) : Option (Option (Option String)) :=
  match h.lookup a with
  | some (.toolCell none) => some none
  | some (.toolCell (some sa)) =>
    match h.lookup sa with
    | some (.specCell n) => some (some n)
    | _ => none
  | _ => none

/-- The denotation a returned descriptor must have, as a function of the
source descriptor's denotation: same shape, with a nonempty name carrying
the `mcp_` namespacing. -/
def clonedDenote (d : Option (Option (Option String))) :
    Option (Option (Option String)) :=
  match d with
  | some (some (some n)) =>
    if n = "" then some (some (some "")) else some (some (some ("mcp_" ++ n)))
  | some (some none) => some (some none)
  | some none => some none
  | none => some none

/-- The spec pointer stored in the tool object at `a`, if any. -/
def specPtr (h : Heap) (a : Nat) : Option Nat :=
  match h.lookup a with
  | some (.toolCell sp) => sp
  | _ => none

/-- All addresses the caller can reach from a returned descriptor list:
the descriptors plus their spec objects. -/
def reachableFrom (h : Heap) (as : List Nat) : List Nat :=
  as ++ as.filterMap (specPtr h)

/-- The shape of a freshly cloned descriptor at `b`: it and its spec cell
(if any) live in the region `[lo, h.next)` of addresses allocated by the
clone loop. -/
def clonedOk (lo : Nat) (h : Heap) (b : Nat) : Prop :=
  lo ≤ b ∧ b < h.next ∧
  match h.lookup b with
  | some (.toolCell none) => True
  | some (.toolCell (some sb)) =>
    lo ≤ sb ∧ sb < h.next ∧ ∃ n, h.lookup sb = some (.specCell n)
  | _ => False

end McpHeap

/-! ## Shared association-list lemmas -/

theorem lookup_mapSet_self {β : Type} (m : List (Nat × β)) (k : Nat) (v : β) :
    List.lookup k (Cmd.mapSet m k v) = some v := by
  induction m with
  | nil => simp [Cmd.mapSet, List.lookup]
  | cons kv rest ih =>
    cases kv with
    | mk k1 v1 =>
      by_cases hk : k1 = k
      · subst hk; simp [Cmd.mapSet, List.lookup]
      · simp only [Cmd.mapSet, if_neg hk, List.lookup,
          beq_eq_false_iff_ne.mpr (fun he : k = k1 => hk he.symm)]
        exact ih

theorem lookup_mapSet_ne {β : Type} (m : List (Nat × β)) (k a : Nat) (v : β)
    (h : ¬ a = k) : List.lookup a (Cmd.mapSet m k v) = List.lookup a m := by
  induction m with
  | nil => simp [Cmd.mapSet, List.lookup, beq_eq_false_iff_ne.mpr h]
  | cons kv rest ih =>
    cases kv with
    | mk k1 v1 =>
      by_cases hk : k1 = k
      · subst hk
        simp only [Cmd.mapSet, if_pos rfl, List.lookup,
          beq_eq_false_iff_ne.mpr h]
      · simp only [Cmd.mapSet, if_neg hk, List.lookup]
        cases hbe : (a == k1) with
        | true => rfl
        | false => exact ih

theorem lookup_mapDelete_self {β : Type} (m : List (Nat × β)) (k : Nat) :
    List.lookup k (Cmd.mapDelete m k) = none := by
  induction m with
  | nil => simp [Cmd.mapDelete, List.lookup]
  | cons kv rest ih =>
    cases kv with
    | mk k1 v1 =>
      by_cases hk : k1 = k
      · subst hk
        simpa [Cmd.mapDelete, List.filter_cons] using ih
      · simp only [Cmd.mapDelete, List.filter_cons] at ih ⊢
        rw [show (!decide ((k1, v1).1 = k)) = true by simp [hk]]
        simp only [List.lookup, beq_eq_false_iff_ne.mpr (fun he : k = k1 => hk he.symm)]
        exact ih

/-! ## Claim C1 -/

/-- C1: for every allow-list pattern whose argument tokens contain a
literal `*` anywhere, and every requested command line whose command token
equals that pattern's command token, `isCommandAllowed` returns `true`
regardless of the requested argument sequence. -/
theorem C1_wildcard_grants_blanket_authorization
    (config : Cmd.CommandConfig) (allowedCmd : Cmd.CommandPatternConfig)
    (commandToExecute : String)
    (hmem : allowedCmd ∈ config.allowedCommands.getD [])
    (hstar : ['*'] ∈ (Cmd.parseCommandPattern allowedCmd.pattern).args)
    (hcmd : (Cmd.parseCommandPattern commandToExecute).command =
            (Cmd.parseCommandPattern allowedCmd.pattern).command) :
    Cmd.isCommandAllowed config commandToExecute = true := by
  have hw : (Cmd.parseCommandPattern allowedCmd.pattern).wildcard = true := by
    simp only [Cmd.parseCommandPattern] at hstar ⊢
    rw [List.any_eq_true]
    exact ⟨['*'], List.mem_of_mem_tail hstar, by simp⟩
  simp only [Cmd.isCommandAllowed]
  rw [List.any_eq_true]
  refine ⟨allowedCmd, hmem, ?_⟩
  simp only [Cmd.matchesAllowedCommand]
  rw [if_neg (not_not_intro hcmd.symm), if_pos hw]

/-- C1 witness: the shipped default `gh pr *` pattern authorizes
`gh pr diff 42 --repo x/y`. -/
theorem C1_witness :
    Cmd.isCommandAllowed ⟨some [⟨"gh pr *", "GitHub PR"⟩], "/bin/bash"⟩
      "gh pr diff 42 --repo x/y" = true :=
  C1_wildcard_grants_blanket_authorization
    ⟨some [⟨"gh pr *", "GitHub PR"⟩], "/bin/bash"⟩ ⟨"gh pr *", "GitHub PR"⟩
    "gh pr diff 42 --repo x/y" (by decide) (by decide) (by decide)

/-! ## Claim C2 -/

/-- C2 counterexample: the pattern `npm run * extra` has a `*` amid other
argument tokens, yet it authorizes `npm x` (argument count 1 versus 3) and
`npm a b c` (equal counts but non-wildcard positions differing), so the
claimed count-equality and positional checks do not happen. -/
theorem C2_counterexample :
    Cmd.isCommandAllowed ⟨some [⟨"npm run * extra", ""⟩], "/bin/bash"⟩ "npm x" = true ∧
    ¬ ((Cmd.parseCommandPattern "npm x").args.length =
       (Cmd.parseCommandPattern "npm run * extra").args.length) ∧
    Cmd.isCommandAllowed ⟨some [⟨"npm run * extra", ""⟩], "/bin/bash"⟩ "npm a b c" = true ∧
    ¬ ((Cmd.parseCommandPattern "npm a b c").args =
       (Cmd.parseCommandPattern "npm run * extra").args) := by
  decide

/-- C2 (amended): a pattern containing a `*` token amid other argument
tokens matches a requested command line exactly when the command tokens
are equal — the positional branch of the matcher is unreachable, so no
argument-count or positional check happens. -/
theorem C2_wildcard_amid_args_is_blanket
    (allowedCmd : Cmd.CommandPatternConfig) (commandToExecute : String)
    (hstar : ['*'] ∈ (Cmd.parseCommandPattern allowedCmd.pattern).args)
    (_hamid : 2 ≤ (Cmd.parseCommandPattern allowedCmd.pattern).args.length) :
    Cmd.matchesAllowedCommand (Cmd.parseCommandPattern commandToExecute) allowedCmd =
      decide ((Cmd.parseCommandPattern allowedCmd.pattern).command =
              (Cmd.parseCommandPattern commandToExecute).command) := by
  have hw : (Cmd.parseCommandPattern allowedCmd.pattern).wildcard = true := by
    simp only [Cmd.parseCommandPattern] at hstar ⊢
    rw [List.any_eq_true]
    exact ⟨['*'], List.mem_of_mem_tail hstar, by simp⟩
  simp only [Cmd.matchesAllowedCommand]
  by_cases hc : (Cmd.parseCommandPattern allowedCmd.pattern).command =
      (Cmd.parseCommandPattern commandToExecute).command
  · rw [if_neg (not_not_intro hc), if_pos hw, decide_eq_true hc]
  · rw [if_pos hc, decide_eq_false hc]

/-- C2 witness: pattern `npm run * extra` against `npm x`. -/
theorem C2_witness :
    Cmd.matchesAllowedCommand (Cmd.parseCommandPattern "npm x")
      ⟨"npm run * extra", ""⟩ =
      decide ((Cmd.parseCommandPattern "npm run * extra").command =
              (Cmd.parseCommandPattern "npm x").command) :=
  C2_wildcard_amid_args_is_blanket ⟨"npm run * extra", ""⟩ "npm x"
    (by decide) (by decide)

/-! ## Claim C3 -/

/-- C3: `checkForErrors "" "Error: Cannot find module 'x'"` is `true` as
the claim states; but `checkForErrors "app crashed but waiting for file
changes" ""` is also `true`, contradicting the claimed recovery
suppression — `app crashed` sits in `errorPatterns` itself, so the first
substring check fires and the dedicated suppression branch is
unreachable. -/
theorem C3_checkForErrors_eval :
    Cmd.checkForErrors "" "Error: Cannot find module 'x'" = true ∧
    Cmd.checkForErrors "app crashed but waiting for file changes" "" = true := by
  decide

/-! ## Claim C5 -/

/-- Helper for C5: with no wildcard token among the pattern arguments, the
per-position check is plain list equality. -/
theorem zip_all_eq_iff (l1 l2 : List (List Char))
    (hs : ∀ x ∈ l1, ¬ x = ['*']) :
    (l1.length = l2.length ∧
      ((l1.zip l2).all fun ae => decide (ae.1 = ['*']) || decide (ae.1 = ae.2)) = true) ↔
    l1 = l2 := by
  induction l1 generalizing l2 with
  | nil =>
    cases l2 with
    | nil => simp
    | cons b bs => simp
  | cons a as ih =>
    cases l2 with
    | nil => simp
    | cons b bs =>
      have ha : ¬ a = ['*'] := hs a (List.mem_cons_self _ _)
      have ih2 := ih bs (fun x hx => hs x (List.mem_cons_of_mem _ hx))
      constructor
      · rintro ⟨hlen, hall⟩
        simp only [List.zip_cons_cons, List.all_cons, Bool.and_eq_true] at hall
        have hab : a = b := by
          rcases Bool.or_eq_true_iff.mp hall.1 with h1 | h2
          · exact absurd (of_decide_eq_true h1) ha
          · exact of_decide_eq_true h2
        have : as = bs := ih2.mp ⟨by simpa using hlen, hall.2⟩
        rw [hab, this]
      · intro heq
        obtain ⟨rfl, rfl⟩ : a = b ∧ as = bs := by
          injection heq with h1 h2
          exact ⟨h1, h2⟩
        refine ⟨rfl, ?_⟩
        simp only [List.zip_cons_cons, List.all_cons, Bool.and_eq_true]
        exact ⟨by simp, (ih2.mpr rfl).2⟩

/-- C5: a pattern with no `*` token matches exactly when the command
tokens are equal and the argument sequences are literally equal (equal
counts, equal positions); `isCommandAllowed` is true exactly when some
pattern of the list matches; and an empty or undefined allow-list denies
everything. -/
theorem C5_no_wildcard_exact_match (config : Cmd.CommandConfig)
    (commandToExecute : String) :
    (Cmd.isCommandAllowed config commandToExecute = true ↔
      ∃ p ∈ config.allowedCommands.getD [],
        Cmd.matchesAllowedCommand (Cmd.parseCommandPattern commandToExecute) p = true) ∧
    (∀ p : Cmd.CommandPatternConfig,
      (Cmd.parseCommandPattern p.pattern).wildcard = false →
      (Cmd.matchesAllowedCommand (Cmd.parseCommandPattern commandToExecute) p = true ↔
        ((Cmd.parseCommandPattern p.pattern).command =
          (Cmd.parseCommandPattern commandToExecute).command ∧
         (Cmd.parseCommandPattern p.pattern).args =
          (Cmd.parseCommandPattern commandToExecute).args))) ∧
    (config.allowedCommands = none ∨ config.allowedCommands = some [] →
      Cmd.isCommandAllowed config commandToExecute = false) := by
  refine ⟨?_, ?_, ?_⟩
  · simp only [Cmd.isCommandAllowed]
    rw [List.any_eq_true]
  · intro p hw
    have hs : ∀ x ∈ (Cmd.parseCommandPattern p.pattern).args, ¬ x = ['*'] := by
      intro x hx
      simp only [Cmd.parseCommandPattern] at hw hx
      rw [List.any_eq_false] at hw
      have := hw x (List.mem_of_mem_tail hx)
      simpa using this
    simp only [Cmd.matchesAllowedCommand]
    by_cases hc : (Cmd.parseCommandPattern p.pattern).command =
        (Cmd.parseCommandPattern commandToExecute).command
    · rw [if_neg (not_not_intro hc), hw, if_neg (by simp : ¬ (false = true))]
      by_cases hl : (Cmd.parseCommandPattern p.pattern).args.length =
          (Cmd.parseCommandPattern commandToExecute).args.length
      · rw [if_neg (not_not_intro hl)]
        constructor
        · intro hall
          exact ⟨hc, (zip_all_eq_iff _ _ hs).mp ⟨hl, hall⟩⟩
        · intro hand
          exact ((zip_all_eq_iff _ _ hs).mpr hand.2).2
      · rw [if_pos hl]
        constructor
        · intro hfalse; simp at hfalse
        · intro hand
          exact absurd (by rw [hand.2]) hl
    · rw [if_pos hc]
      simp [hc]
  · rintro (h | h) <;> simp [Cmd.isCommandAllowed, h]

/-- C5 witness: instantiating the no-wildcard characterization at pattern
`npm install` and request `npm install lodash` (which it must not
authorize). -/
theorem C5_witness :
    Cmd.matchesAllowedCommand (Cmd.parseCommandPattern "npm install lodash")
      ⟨"npm install", "install"⟩ = true ↔
      ((Cmd.parseCommandPattern "npm install").command =
        (Cmd.parseCommandPattern "npm install lodash").command ∧
       (Cmd.parseCommandPattern "npm install").args =
        (Cmd.parseCommandPattern "npm install lodash").args) :=
  (C5_no_wildcard_exact_match ⟨some [⟨"npm install", "install"⟩], "/bin/bash"⟩
      "npm install lodash").2.1 ⟨"npm install", "install"⟩ (by decide)

/-! ## Claim C4 -/

/-- Helper: `updateProcessState` on a tracked pid stores the updated
state. -/
theorem lookup_updateProcessState_self (svc : Cmd.ServiceState) (pid : Nat)
    (f : Cmd.ProcessState → Cmd.ProcessState) (st : Cmd.ProcessState)
    (hstate : svc.processStates.lookup pid = some st) :
    (Cmd.updateProcessState svc pid f).processStates.lookup pid = some (f st) := by
  simp [Cmd.updateProcessState, hstate, lookup_mapSet_self]

/-- C4 counterexample: spawn pid 7, receive stdout `ready` (the promise
resolves on the server-ready branch without purging), then the process
exits with code 0 — the exit handler again takes the server-ready branch
of `completeWithSuccess`, so the session stays in `processStates` with
`isRunning = false` and `sendInput`'s guard still accepts the pid instead
of failing with "no such process". -/
theorem C4_counterexample :
    (let p1 := Cmd.spawnRegister ⟨[], []⟩ 7 "npm run dev" 1700000000
     let p2 := Cmd.stdoutDataHandler p1.1 p1.2 "ready"
     let p3 := Cmd.exitHandler p2.1 p2.2.1 (some 0)
     ((p3.1.processStates.lookup 7).map Cmd.ProcessState.isRunning = some false) ∧
       Cmd.sendInputEligible p3.1 7 = true) := by
  decide

/-- C4 (amended): a pid is ineligible for `sendInput` exactly when its
entry is gone from the process-state table; in particular an exit event
for a not-yet-completed session whose cumulative output matches neither
the waiting-for-input nor the server-ready patterns purges the session
from the table, after which `sendInput` fails with "no such process".
A session that exits while its output matches one of those patterns stays
in the table (with `isRunning = false`) and remains accepted. -/
theorem C4_amended_exit_purges_unless_waiting_or_ready
    (svc : Cmd.ServiceState) (sess : Cmd.ExecSession) (code : Option Int)
    (st : Cmd.ProcessState)
    (hstate : svc.processStates.lookup sess.pid = some st)
    (hnc : sess.isCompleted = false)
    (hnw : Cmd.isWaitingForInput sess.currentOutput = false)
    (hnr : Cmd.isServerReady sess.currentOutput = false) :
    (Cmd.exitHandler svc sess code).1.processStates.lookup sess.pid = none ∧
    Cmd.sendInputEligible (Cmd.exitHandler svc sess code).1 sess.pid = false := by
  have hmain : (Cmd.exitHandler svc sess code).1.processStates.lookup sess.pid = none := by
    simp only [Cmd.exitHandler, hstate]
    have hupd := lookup_updateProcessState_self svc sess.pid
      (fun st => { st with
        isRunning := false
        output := { st.output with code := some (Cmd.exitHandler.codeOr0 code) } })
      st hstate
    split
    · simp only [Cmd.completeWithSuccess, hnc, Bool.false_eq_true, if_false, hupd,
        hnw, hnr, if_false]
      simp [Cmd.cleanupTables, lookup_mapDelete_self]
    · rw [if_pos (by simp [hnc])]
      simp only [Cmd.completeWithError, hnc, Bool.false_eq_true, if_false]
      simp [Cmd.cleanupTables, lookup_mapDelete_self]
  refine ⟨hmain, ?_⟩
  simp [Cmd.sendInputEligible, hmain]

/-- C4 witness for the amended statement: a tracked session whose output
`done.` matches no waiting/ready pattern is purged by a zero exit. -/
theorem C4_amended_witness :
    (Cmd.exitHandler ⟨[(3, ⟨3, "sleep 1", 0⟩)], [(3, ⟨true, false, ⟨"", "", none⟩, true⟩)]⟩
        ⟨3, "sleep 1", "done.", "", false⟩ (some 0)).1.processStates.lookup 3 = none ∧
    Cmd.sendInputEligible
      (Cmd.exitHandler ⟨[(3, ⟨3, "sleep 1", 0⟩)], [(3, ⟨true, false, ⟨"", "", none⟩, true⟩)]⟩
        ⟨3, "sleep 1", "done.", "", false⟩ (some 0)).1 3 = false :=
  C4_amended_exit_purges_unless_waiting_or_ready
    ⟨[(3, ⟨3, "sleep 1", 0⟩)], [(3, ⟨true, false, ⟨"", "", none⟩, true⟩)]⟩
    ⟨3, "sleep 1", "done.", "", false⟩ (some 0)
    ⟨true, false, ⟨"", "", none⟩, true⟩ (by rfl) (by rfl) (by decide) (by decide)

/-! ## Claim C10 -/

/-- C10: `stopProcess` on a pid absent from the running-process table
attempts no kill and returns both tables unchanged with a successful
outcome; and when the OS kill throws for a tracked pid, the error is
rethrown wrapped and both tables are returned unchanged. -/
theorem C10_stopProcess_untracked_noop_and_error_preserves
    (svc : Cmd.ServiceState) (pid : Nat) :
    (∀ killError, svc.runningProcesses.lookup pid = none →
      Cmd.stopProcess svc pid killError = (svc, false, .ok ())) ∧
    (∀ info msg, svc.runningProcesses.lookup pid = some info →
      Cmd.stopProcess svc pid (some msg) =
        (svc, true,
         .error ("Failed to stop process " ++ toString pid ++ ": " ++ msg))) := by
  constructor
  · intro killError h
    simp [Cmd.stopProcess, h]
  · intro info msg h
    simp [Cmd.stopProcess, h]

/-- C10 witness: an untracked pid is a no-op; a tracked pid whose kill
throws `EPERM` yields the wrapped error with the tables untouched. -/
theorem C10_witness :
    Cmd.stopProcess ⟨[], []⟩ 9 (some "EPERM") = (⟨[], []⟩, false, .ok ()) ∧
    Cmd.stopProcess ⟨[(9, ⟨9, "npm run dev", 0⟩)], [(9, ⟨true, false, ⟨"", "", none⟩, true⟩)]⟩
        9 (some "EPERM") =
      (⟨[(9, ⟨9, "npm run dev", 0⟩)], [(9, ⟨true, false, ⟨"", "", none⟩, true⟩)]⟩, true,
       .error ("Failed to stop process " ++ toString 9 ++ ": " ++ "EPERM")) :=
  ⟨(C10_stopProcess_untracked_noop_and_error_preserves ⟨[], []⟩ 9).1 (some "EPERM") (by rfl),
   (C10_stopProcess_untracked_noop_and_error_preserves
      ⟨[(9, ⟨9, "npm run dev", 0⟩)], [(9, ⟨true, false, ⟨"", "", none⟩, true⟩)]⟩ 9).2
     ⟨9, "npm run dev", 0⟩ "EPERM" (by rfl)⟩

/-! ## Claim C6 -/

theorem charListLe_total (a b : List Char) :
    Mcp.charListLe a b = true ∨ Mcp.charListLe b a = true := by
  induction a generalizing b with
  | nil => left; rfl
  | cons x xs ih =>
    cases b with
    | nil => right; rfl
    | cons y ys =>
      rcases lt_trichotomy x y with hxy | hxy | hxy
      · left; simp [Mcp.charListLe, hxy]
      · subst hxy
        rcases ih ys with h | h
        · left; simp [Mcp.charListLe, lt_irrefl, h]
        · right; simp [Mcp.charListLe, lt_irrefl, h]
      · right; simp [Mcp.charListLe, hxy]

theorem charListLe_trans {a b c : List Char}
    (hab : Mcp.charListLe a b = true) (hbc : Mcp.charListLe b c = true) :
    Mcp.charListLe a c = true := by
  induction a generalizing b c with
  | nil => rfl
  | cons x xs ih =>
    cases b with
    | nil => simp [Mcp.charListLe] at hab
    | cons y ys =>
      cases c with
      | nil => simp [Mcp.charListLe] at hbc
      | cons z zs =>
        rcases lt_trichotomy x y with hxy | hxy | hxy
        · rcases lt_trichotomy y z with hyz | hyz | hyz
          · simp [Mcp.charListLe, lt_trans hxy hyz]
          · subst hyz; simp [Mcp.charListLe, hxy]
          · simp [Mcp.charListLe, hyz, lt_asymm hyz] at hbc
        · subst hxy
          rcases lt_trichotomy x z with hyz | hyz | hyz
          · simp [Mcp.charListLe, hyz]
          · subst hyz
            simp only [Mcp.charListLe, lt_irrefl, if_false] at hab hbc ⊢
            exact ih hab hbc
          · simp [Mcp.charListLe, hyz, lt_asymm hyz] at hbc
        · simp [Mcp.charListLe, hxy, lt_asymm hxy] at hab

theorem charListLe_antisymm {a b : List Char}
    (hab : Mcp.charListLe a b = true) (hba : Mcp.charListLe b a = true) :
    a = b := by
  induction a generalizing b with
  | nil =>
    cases b with
    | nil => rfl
    | cons y ys => simp [Mcp.charListLe] at hba
  | cons x xs ih =>
    cases b with
    | nil => simp [Mcp.charListLe] at hab
    | cons y ys =>
      rcases lt_trichotomy x y with hxy | hxy | hxy
      · simp [Mcp.charListLe, hxy, lt_asymm hxy] at hba
      · subst hxy
        simp only [Mcp.charListLe, lt_irrefl, if_false] at hab hba
        rw [ih hab hba]
      · simp [Mcp.charListLe, hxy, lt_asymm hxy] at hab

theorem strLe_total (a b : String) : Mcp.strLe a b = true ∨ Mcp.strLe b a = true :=
  charListLe_total a.data b.data

theorem strLe_trans {a b c : String} (hab : Mcp.strLe a b = true)
    (hbc : Mcp.strLe b c = true) : Mcp.strLe a c = true :=
  charListLe_trans hab hbc

theorem strLe_antisymm {a b : String} (hab : Mcp.strLe a b = true)
    (hba : Mcp.strLe b a = true) : a = b :=
  String.ext (charListLe_antisymm hab hba)

theorem charListCompare_swap (a b : List Char) :
    Mcp.charListCompare a b = Ordering.gt ↔ Mcp.charListCompare b a = Ordering.lt := by
  induction a generalizing b with
  | nil => cases b <;> simp [Mcp.charListCompare]
  | cons x xs ih =>
    cases b with
    | nil => simp [Mcp.charListCompare]
    | cons y ys =>
      rcases lt_trichotomy x y with hxy | hxy | hxy
      · simp [Mcp.charListCompare, hxy, lt_asymm hxy]
      · subst hxy; simp [Mcp.charListCompare, lt_irrefl, ih]
      · simp [Mcp.charListCompare, hxy, lt_asymm hxy]

theorem charListCompare_not_gt (a b : List Char) :
    (¬ Mcp.charListCompare a b = Ordering.gt) ↔ Mcp.charListLe a b = true := by
  induction a generalizing b with
  | nil => cases b <;> simp [Mcp.charListCompare, Mcp.charListLe]
  | cons x xs ih =>
    cases b with
    | nil => simp [Mcp.charListCompare, Mcp.charListLe]
    | cons y ys =>
      rcases lt_trichotomy x y with hxy | hxy | hxy
      · simp [Mcp.charListCompare, Mcp.charListLe, hxy]
      · subst hxy
        simp [Mcp.charListCompare, Mcp.charListLe, lt_irrefl, ih]
      · simp [Mcp.charListCompare, Mcp.charListLe, hxy, lt_asymm hxy]

theorem charListCompare_eq_iff (a b : List Char) :
    Mcp.charListCompare a b = Ordering.eq ↔ a = b := by
  induction a generalizing b with
  | nil => cases b <;> simp [Mcp.charListCompare]
  | cons x xs ih =>
    cases b with
    | nil => simp [Mcp.charListCompare]
    | cons y ys =>
      rcases lt_trichotomy x y with hxy | hxy | hxy
      · simp [Mcp.charListCompare, hxy, ne_of_lt hxy]
      · subst hxy
        simp [Mcp.charListCompare, lt_irrefl, ih]
      · simp [Mcp.charListCompare, hxy, lt_asymm hxy, (ne_of_lt hxy).symm]

theorem strCompare_swap (a b : String) :
    Mcp.strCompare a b = Ordering.gt ↔ Mcp.strCompare b a = Ordering.lt :=
  charListCompare_swap a.data b.data

theorem strCompare_trans_not_gt (a b c : String)
    (hab : ¬ Mcp.strCompare a b = Ordering.gt)
    (hbc : ¬ Mcp.strCompare b c = Ordering.gt) :
    ¬ Mcp.strCompare a c = Ordering.gt :=
  (charListCompare_not_gt a.data c.data).mpr
    (charListLe_trans ((charListCompare_not_gt a.data b.data).mp hab)
      ((charListCompare_not_gt b.data c.data).mp hbc))

theorem strCompare_eq_iff (a b : String) :
    Mcp.strCompare a b = Ordering.eq ↔ a = b :=
  ⟨fun h => String.ext ((charListCompare_eq_iff a.data b.data).mp h),
   fun h => (charListCompare_eq_iff a.data b.data).mpr (by rw [h])⟩

/-- Sorting a name list is invariant under permutation of the input. -/
theorem sortNames_eq_of_perm {l1 l2 : List String} (hp : l1.Perm l2) :
    Mcp.sortNames l1 = Mcp.sortNames l2 := by
  haveI ht : IsTotal String (fun a b => Mcp.strLe a b = true) := ⟨strLe_total⟩
  haveI htr : IsTrans String (fun a b => Mcp.strLe a b = true) :=
    ⟨fun _ _ _ => strLe_trans⟩
  haveI has : IsAntisymm String (fun a b => Mcp.strLe a b = true) :=
    ⟨fun _ _ => strLe_antisymm⟩
  exact List.eq_of_perm_of_sorted
    (((List.perm_insertionSort _ l1).trans hp).trans
      (List.perm_insertionSort _ l2).symm)
    (List.sorted_insertionSort _ l1) (List.sorted_insertionSort _ l2)

/-- Two lists that are permutations of each other, both pairwise ordered
by a relation that is asymmetric on the first list's members, are equal. -/
theorem eq_of_perm_of_pairwise_of_asymm {α : Type} {r : α → α → Prop} :
    ∀ {l1 l2 : List α}, l1.Perm l2 → l1.Pairwise r → l2.Pairwise r →
      (∀ a ∈ l1, ∀ b ∈ l1, r a b → r b a → False) → l1 = l2 := by
  intro l1
  induction l1 with
  | nil =>
    intro l2 hp _ _ _
    exact (hp.symm.eq_nil).symm
  | cons a t ih =>
    intro l2 hp hp1 hp2 hasym
    cases l2 with
    | nil => exact absurd hp.eq_nil (by simp)
    | cons b t2 =>
      by_cases hab : a = b
      · subst hab
        have hpt : t.Perm t2 := hp.cons_inv
        have ht1 := (List.pairwise_cons.mp hp1).2
        have ht2 := (List.pairwise_cons.mp hp2).2
        rw [ih hpt ht1 ht2
          (fun x hx y hy => hasym x (List.mem_cons_of_mem _ hx)
            y (List.mem_cons_of_mem _ hy))]
      · have ha2 : a ∈ t2 := by
          have hm : a ∈ b :: t2 := hp.mem_iff.mp (List.mem_cons_self _ _)
          rcases List.mem_cons.mp hm with h | h
          · exact absurd h hab
          · exact h
        have hb1 : b ∈ t := by
          have hm : b ∈ a :: t := hp.mem_iff.mpr (List.mem_cons_self _ _)
          rcases List.mem_cons.mp hm with h | h
          · exact absurd h.symm hab
          · exact h
        have hrab : r a b := (List.pairwise_cons.mp hp1).1 b hb1
        have hrba : r b a := (List.pairwise_cons.mp hp2).1 a ha2
        exact (hasym a (List.mem_cons_self _ _) b (List.mem_cons_of_mem _ hb1)
          hrab hrba).elim

/-- With a consistent comparator that ties no two distinct configured
names, the stable sort of the configs by name is invariant under
permutation of the input. (ICU `localeCompare` may tie distinct names;
on such inputs the stable sort is input-order-dependent — see the C6
counterexample.) -/
theorem sortServersByName_eq_of_perm (lc : String → String → Ordering)
    {l1 l2 : List Mcp.McpServerConfig}
    (hconsist : ∀ a b, lc a b = Ordering.gt ↔ lc b a = Ordering.lt)
    (htrans : ∀ a b c, ¬ lc a b = Ordering.gt → ¬ lc b c = Ordering.gt →
      ¬ lc a c = Ordering.gt)
    (hnotie : ∀ a ∈ l1, ∀ b ∈ l1, lc a.name b.name = Ordering.eq → a.name = b.name)
    (hnd : (l1.map Mcp.McpServerConfig.name).Nodup) (hp : l1.Perm l2) :
    Mcp.sortServersByName lc l1 = Mcp.sortServersByName lc l2 := by
  haveI ht : IsTotal Mcp.McpServerConfig
      (fun a b => ¬ (lc a.name b.name = Ordering.gt)) := by
    constructor
    intro a b
    by_cases h : lc a.name b.name = Ordering.gt
    · right
      rw [(hconsist a.name b.name).mp h]
      simp
    · left; exact h
  haveI htr : IsTrans Mcp.McpServerConfig
      (fun a b => ¬ (lc a.name b.name = Ordering.gt)) :=
    ⟨fun a b c => htrans a.name b.name c.name⟩
  unfold Mcp.sortServersByName
  have hps1 := List.perm_insertionSort
    (fun a b : Mcp.McpServerConfig => ¬ (lc a.name b.name = Ordering.gt)) l1
  have hps2 := List.perm_insertionSort
    (fun a b : Mcp.McpServerConfig => ¬ (lc a.name b.name = Ordering.gt)) l2
  have hperm := (hps1.trans hp).trans hps2.symm
  have hnd1 := hnd.perm (hps1.map Mcp.McpServerConfig.name).symm
  have hnd2 := hnd1.perm (hperm.map Mcp.McpServerConfig.name)
  have hstrict : ∀ l : List Mcp.McpServerConfig,
      List.Sorted (fun a b => ¬ (lc a.name b.name = Ordering.gt)) l →
      (l.map Mcp.McpServerConfig.name).Nodup →
      List.Pairwise (fun a b : Mcp.McpServerConfig =>
        ¬ (lc a.name b.name = Ordering.gt) ∧ ¬ (a.name = b.name)) l :=
    fun l hs hn => hs.and (List.pairwise_map.mp hn)
  refine eq_of_perm_of_pairwise_of_asymm hperm
    (hstrict _ (List.sorted_insertionSort _ l1) hnd1)
    (hstrict _ (List.sorted_insertionSort _ l2) hnd2) ?_
  intro a ha b hb hab hba
  have heq : lc a.name b.name = Ordering.eq := by
    cases hcase : lc a.name b.name with
    | lt => exact absurd ((hconsist b.name a.name).mpr hcase) hba.1
    | eq => rfl
    | gt => exact absurd hcase hab.1
  exact hab.2 (hnotie a (hps1.subset ha) b (hps1.subset hb) heq)

/-- Zipping a list with itself passes the pointwise equality test. -/
theorem zip_self_all_eq (l : List String) :
    ((l.zip l).all fun ab => decide (ab.1 = ab.2)) = true := by
  induction l with
  | nil => rfl
  | cons a as ih => simpa using ih

/-- The core of C6 as amended: after recording configuration `S`, a
permutation of `S` is reported unchanged, provided the comparator is
consistent and ties no two distinct names of `S`. -/
theorem hasConfigChanged_perm_false (lc : String → String → Ordering)
    {S S' : List Mcp.McpServerConfig}
    (hconsist : ∀ a b, lc a b = Ordering.gt ↔ lc b a = Ordering.lt)
    (htrans : ∀ a b c, ¬ lc a b = Ordering.gt → ¬ lc b c = Ordering.gt →
      ¬ lc a c = Ordering.gt)
    (hnotie : ∀ a ∈ S, ∀ b ∈ S, lc a.name b.name = Ordering.eq → a.name = b.name)
    (hnd : (S.map Mcp.McpServerConfig.name).Nodup) (hp : S'.Perm S) :
    Mcp.hasConfigChanged lc (Mcp.updateConfigCache lc S) S' = false := by
  have hlen : S'.length = S.length := hp.length_eq
  unfold Mcp.hasConfigChanged Mcp.updateConfigCache
  simp only
  rw [if_neg (not_not_intro hlen)]
  by_cases hz : S.length = 0
  · have hS' : S'.length = 0 := by rw [hlen, hz]
    rw [if_pos (by simp [hS', hz])]
  · rw [if_neg (by simp [hz, hlen])]
    have hnames : Mcp.sortNames (S'.map Mcp.McpServerConfig.name) =
        Mcp.sortNames (S.map Mcp.McpServerConfig.name) :=
      sortNames_eq_of_perm (hp.map Mcp.McpServerConfig.name)
    have hhash : Mcp.generateConfigHash lc S' = Mcp.generateConfigHash lc S := by
      unfold Mcp.generateConfigHash
      rw [if_neg (by rw [hlen]; exact hz), if_neg hz,
        sortServersByName_eq_of_perm lc hconsist htrans hnotie hnd hp.symm]
    rw [if_neg]
    · simp [hhash]
    · simp only [hnames, Bool.not_eq_true]
      simp [zip_self_all_eq]

/-- C6 counterexample: `localeCompare` is ICU collation and may return 0
for distinct names; here it ties the canonically equivalent pair
`ä` (NFC) and `a` + combining diaeresis (NFD). The two byte-identical
entries carry those names, so the stable sort inside `generateConfigHash`
keeps input order, reordering them changes the hash, `hasConfigChanged`
reports a change, and the second call performs a full re-activation
instead of returning immediately. -/
theorem C6_counterexample :
    (let lcTie := fun a b : String =>
       if a = b then Ordering.eq
       else if (a = "ä" ∧ b = "a\u0308") ∨ (a = "a\u0308" ∧ b = "ä") then Ordering.eq
       else Mcp.strCompare a b
     let s1 : Mcp.McpServerConfig := ⟨"ä", "", some "npx", some [], none⟩
     let s2 : Mcp.McpServerConfig := ⟨"a\u0308", "", some "uvx", some [], none⟩
     Mcp.hasConfigChanged lcTie (Mcp.updateConfigCache lcTie [s1, s2]) [s2, s1] = true ∧
       (Mcp.initMcpFromAgentConfig lcTie (fun _ => none)
         (Mcp.initMcpFromAgentConfig lcTie (fun _ => none)
           ⟨[], Mcp.initialCache⟩ [s1, s2]).1
         [s2, s1]).2 = .activated) := by
  decide

/-- C6 (amended): calling `initMcpFromAgentConfig` again, right after a
successful activation of `S`, with any reordering `Sp` of the
byte-identical entries performs no second activation — the change
detection reports no change and the call returns immediately with the
registry untouched — provided the names of `S` are pairwise distinct (the
data model's unique-key requirement) and the locale comparator is
consistent and does not tie two distinct configured names (ICU
`localeCompare` returns 0 only for equal names among the entries). -/
theorem C6_equivalent_config_skips_reactivation
    (lc : String → String → Ordering)
    (launch : Mcp.McpServerConfig → Option (List Mcp.McpTool))
    (reg : Mcp.McpRegistry) (S Sp : List Mcp.McpServerConfig)
    (hconsist : ∀ a b, lc a b = Ordering.gt ↔ lc b a = Ordering.lt)
    (htrans : ∀ a b c, ¬ lc a b = Ordering.gt → ¬ lc b c = Ordering.gt →
      ¬ lc a c = Ordering.gt)
    (hnotie : ∀ a ∈ S, ∀ b ∈ S, lc a.name b.name = Ordering.eq → a.name = b.name)
    (hnd : (S.map Mcp.McpServerConfig.name).Nodup)
    (hp : Sp.Perm S)
    (hact : (Mcp.initMcpFromAgentConfig lc launch reg S).2 = .activated) :
    Mcp.initMcpFromAgentConfig lc launch
        (Mcp.initMcpFromAgentConfig lc launch reg S).1 Sp =
      ((Mcp.initMcpFromAgentConfig lc launch reg S).1, .skipped) := by
  have hcache : (Mcp.initMcpFromAgentConfig lc launch reg S).1.cache =
      Mcp.updateConfigCache lc S := by
    unfold Mcp.initMcpFromAgentConfig at hact ⊢
    split at hact
    · simp at hact
    · split at hact
      · next hzero =>
        rw [if_neg (by assumption), if_pos hzero]
        rw [List.length_eq_zero.mp hzero]
      · next hzero =>
        split at hact
        · next hvalid =>
          rw [if_neg (by assumption), if_neg hzero, if_pos hvalid]
        · simp at hact
  have hchg := hasConfigChanged_perm_false lc hconsist htrans hnotie hnd hp
  conv_lhs => rw [Mcp.initMcpFromAgentConfig]
  rw [hcache, hchg]
  rfl

/-- C6 witness: two byte-identical, distinct-ASCII-named entries in
swapped order, with the tie-free code-point comparator as the
`localeCompare` realization. -/
theorem C6_witness :
    Mcp.initMcpFromAgentConfig Mcp.strCompare (fun _ => none)
      (Mcp.initMcpFromAgentConfig Mcp.strCompare (fun _ => none)
        ⟨[], Mcp.initialCache⟩
        [⟨"brave", "search", some "npx", some ["-y", "brave"], none⟩,
         ⟨"aws-docs", "docs", some "uvx", some ["mcp-server"], some [("K", "v")]⟩]).1
      [⟨"aws-docs", "docs", some "uvx", some ["mcp-server"], some [("K", "v")]⟩,
       ⟨"brave", "search", some "npx", some ["-y", "brave"], none⟩] =
    ((Mcp.initMcpFromAgentConfig Mcp.strCompare (fun _ => none)
        ⟨[], Mcp.initialCache⟩
        [⟨"brave", "search", some "npx", some ["-y", "brave"], none⟩,
         ⟨"aws-docs", "docs", some "uvx", some ["mcp-server"], some [("K", "v")]⟩]).1,
     .skipped) :=
  C6_equivalent_config_skips_reactivation Mcp.strCompare (fun _ => none)
    ⟨[], Mcp.initialCache⟩
    [⟨"brave", "search", some "npx", some ["-y", "brave"], none⟩,
     ⟨"aws-docs", "docs", some "uvx", some ["mcp-server"], some [("K", "v")]⟩]
    [⟨"aws-docs", "docs", some "uvx", some ["mcp-server"], some [("K", "v")]⟩,
     ⟨"brave", "search", some "npx", some ["-y", "brave"], none⟩]
    strCompare_swap strCompare_trans_not_gt
    (by decide) (by decide) (by decide) (by decide)

/-! ## Claim C7 -/

/-- Helper: a config set that passes validation never makes the
initialization throw. -/
theorem initMcp_not_failed_of_valid
    (lc : String → String → Ordering)
    (launch : Mcp.McpServerConfig → Option (List Mcp.McpTool))
    (reg : Mcp.McpRegistry) (servers : List Mcp.McpServerConfig)
    (hvalid : Mcp.validateConfigData servers = true) :
    ¬ ((Mcp.initMcpFromAgentConfig lc launch reg servers).2 = .failed) := by
  unfold Mcp.initMcpFromAgentConfig
  by_cases h1 : (!Mcp.hasConfigChanged lc reg.cache servers) = true
  · rw [if_pos h1]; simp
  · rw [if_neg h1]
    by_cases h2 : servers.length = 0
    · rw [if_pos h2]; simp
    · rw [if_neg h2, if_pos hvalid]; simp

/-- C7: when the configuration fails schema validation (and the fast path
does not apply), the whole activation batch aborts: no client is launched,
the call throws, and the cached identity is reset to the
empty-configuration baseline — which forces any following call with a
non-empty config set through full change detection; and a validation
failure is the only way the initialization throws. -/
theorem C7_validation_error_aborts_and_resets
    (lc : String → String → Ordering)
    (launch : Mcp.McpServerConfig → Option (List Mcp.McpTool))
    (reg : Mcp.McpRegistry) (servers : List Mcp.McpServerConfig)
    (hchanged : Mcp.hasConfigChanged lc reg.cache servers = true)
    (hne : ¬ (servers.length = 0))
    (hbad : Mcp.validateConfigData servers = false) :
    Mcp.initMcpFromAgentConfig lc launch reg servers =
      (⟨[], Mcp.updateConfigCache lc []⟩, .failed) ∧
    (∀ Sp : List Mcp.McpServerConfig, ¬ (Sp.length = 0) →
      Mcp.hasConfigChanged lc (Mcp.updateConfigCache lc []) Sp = true) ∧
    (∀ (launch2 : Mcp.McpServerConfig → Option (List Mcp.McpTool))
       (servers2 : List Mcp.McpServerConfig),
      Mcp.validateConfigData servers2 = true →
      ¬ ((Mcp.initMcpFromAgentConfig lc launch2 reg servers2).2 = .failed)) := by
  refine ⟨?_, ?_, ?_⟩
  · simp [Mcp.initMcpFromAgentConfig, hchanged, hbad, hne]
  · intro Sp hSp
    simp [Mcp.hasConfigChanged, Mcp.updateConfigCache, hSp]
  · intro launch2 servers2 hvalid
    exact initMcp_not_failed_of_valid lc launch2 reg servers2 hvalid

/-- C7 witness: a registry holding previously-good state, hit with a
config whose `command` is missing. -/
theorem C7_witness :
    Mcp.initMcpFromAgentConfig Mcp.strCompare (fun _ => none)
      ⟨[⟨"old", []⟩],
       Mcp.updateConfigCache Mcp.strCompare [⟨"good", "", some "npx", some [], none⟩]⟩
      [⟨"bad", "", none, some [], none⟩] =
      (⟨[], Mcp.updateConfigCache Mcp.strCompare []⟩, .failed) ∧
    (∀ Sp : List Mcp.McpServerConfig, ¬ (Sp.length = 0) →
      Mcp.hasConfigChanged Mcp.strCompare
        (Mcp.updateConfigCache Mcp.strCompare []) Sp = true) ∧
    (∀ (launch2 : Mcp.McpServerConfig → Option (List Mcp.McpTool))
       (servers2 : List Mcp.McpServerConfig),
      Mcp.validateConfigData servers2 = true →
      ¬ ((Mcp.initMcpFromAgentConfig Mcp.strCompare launch2
            ⟨[⟨"old", []⟩],
             Mcp.updateConfigCache Mcp.strCompare [⟨"good", "", some "npx", some [], none⟩]⟩
            servers2).2 = .failed)) :=
  C7_validation_error_aborts_and_resets Mcp.strCompare (fun _ => none)
    ⟨[⟨"old", []⟩],
     Mcp.updateConfigCache Mcp.strCompare [⟨"good", "", some "npx", some [], none⟩]⟩
    [⟨"bad", "", none, some [], none⟩] (by decide) (by decide) (by decide)

/-! ## Claim C8 -/

/-- C8: `tryExecuteMcpTool` returns a structured `{found := false,
success := false}` result — it does not throw — both when no MCP servers
are configured (`undefined` or empty list) and when the (validating)
configured registry has no active connection advertising the exact
un-prefixed tool name. -/
theorem C8_unknown_tool_structured_not_found
    (lc : String → String → Ordering)
    (launch : Mcp.McpServerConfig → Option (List Mcp.McpTool))
    (call : Mcp.McpClient → String → String → Except String String)
    (reg : Mcp.McpRegistry) (toolName input : String)
    (mcpServers : Option (List Mcp.McpServerConfig)) :
    ((mcpServers = none ∨ mcpServers = some []) →
      Mcp.tryExecuteMcpTool lc launch call reg toolName input mcpServers =
        .ok (reg, Mcp.noServersResult toolName) ∧
      (Mcp.noServersResult toolName).found = false ∧
      (Mcp.noServersResult toolName).success = false) ∧
    (∀ S, mcpServers = some S → ¬ (S.length = 0) →
      Mcp.validateConfigData S = true →
      (∀ c ∈ (Mcp.initMcpFromAgentConfig lc launch reg S).1.clients,
        ∀ t ∈ c.tools, Mcp.toolSpecNameIs t toolName = false) →
      Mcp.tryExecuteMcpTool lc launch call reg toolName input mcpServers =
        .ok ((Mcp.initMcpFromAgentConfig lc launch reg S).1,
             Mcp.toolNotFoundResult toolName) ∧
      (Mcp.toolNotFoundResult toolName).found = false ∧
      (Mcp.toolNotFoundResult toolName).success = false) := by
  constructor
  · rintro (rfl | rfl)
    · exact ⟨rfl, rfl, rfl⟩
    · exact ⟨rfl, rfl, rfl⟩
  · rintro S rfl hne hvalid hnone
    have hfind : (Mcp.initMcpFromAgentConfig lc launch reg S).1.clients.find?
        (fun client =>
          (client.tools.find? (fun tool => Mcp.toolSpecNameIs tool toolName)).isSome) =
        none := by
      rw [List.find?_eq_none]
      intro c hc
      have hin : c.tools.find? (fun tool => Mcp.toolSpecNameIs tool toolName) = none := by
        rw [List.find?_eq_none]
        intro t ht
        simp [hnone c hc t ht]
      simp [hin]
    refine ⟨?_, rfl, rfl⟩
    simp only [Mcp.tryExecuteMcpTool]
    rw [if_neg hne,
      if_neg (initMcp_not_failed_of_valid lc launch reg S hvalid), hfind]

/-- C8 witness: the empty case at `toolName = "search"`, and a registry
with one client advertising only `other`. -/
theorem C8_witness :
    (Mcp.tryExecuteMcpTool Mcp.strCompare (fun _ => some [⟨some ⟨some "other"⟩⟩])
        (fun _ _ _ => .ok "r") ⟨[], Mcp.initialCache⟩ "search" "{}" none =
      .ok (⟨[], Mcp.initialCache⟩, Mcp.noServersResult "search") ∧
      (Mcp.noServersResult "search").found = false ∧
      (Mcp.noServersResult "search").success = false) ∧
    (Mcp.tryExecuteMcpTool Mcp.strCompare (fun _ => some [⟨some ⟨some "other"⟩⟩])
        (fun _ _ _ => .ok "r") ⟨[], Mcp.initialCache⟩ "search" "{}"
        (some [⟨"srv", "d", some "uvx", some [], none⟩]) =
      .ok ((Mcp.initMcpFromAgentConfig Mcp.strCompare
             (fun _ => some [⟨some ⟨some "other"⟩⟩])
             ⟨[], Mcp.initialCache⟩ [⟨"srv", "d", some "uvx", some [], none⟩]).1,
           Mcp.toolNotFoundResult "search") ∧
      (Mcp.toolNotFoundResult "search").found = false ∧
      (Mcp.toolNotFoundResult "search").success = false) :=
  ⟨(C8_unknown_tool_structured_not_found Mcp.strCompare
      (fun _ => some [⟨some ⟨some "other"⟩⟩])
      (fun _ _ _ => .ok "r") ⟨[], Mcp.initialCache⟩ "search" "{}" none).1 (Or.inl rfl),
   (C8_unknown_tool_structured_not_found Mcp.strCompare
      (fun _ => some [⟨some ⟨some "other"⟩⟩])
      (fun _ _ _ => .ok "r") ⟨[], Mcp.initialCache⟩ "search" "{}"
      (some [⟨"srv", "d", some "uvx", some [], none⟩])).2
     [⟨"srv", "d", some "uvx", some [], none⟩] rfl (by decide) (by decide) (by decide)⟩

/-! ## Claim C9: heap lemmas -/

theorem lookup_append_sing_ne {β : Type} (m : List (Nat × β)) (k a : Nat) (v : β)
    (h : ¬ a = k) : List.lookup a (m ++ [(k, v)]) = List.lookup a m := by
  induction m with
  | nil => simp [List.lookup, beq_eq_false_iff_ne.mpr h]
  | cons kv rest ih =>
    cases kv with
    | mk k1 v1 =>
      simp only [List.cons_append, List.lookup]
      cases hbe : (a == k1) with
      | true => rfl
      | false => exact ih

theorem lookup_none_of_keys_lt {β : Type} (m : List (Nat × β)) (n : Nat)
    (hb : ∀ kv ∈ m, kv.1 < n) : List.lookup n m = none := by
  induction m with
  | nil => rfl
  | cons kv rest ih =>
    cases kv with
    | mk k1 v1 =>
      have h1 : k1 < n := hb (k1, v1) (List.mem_cons_self _ _)
      have hne : ¬ n = k1 := fun he => absurd (he ▸ h1) (lt_irrefl n)
      simp only [List.lookup, beq_eq_false_iff_ne.mpr hne]
      exact ih (fun kv hm => hb kv (List.mem_cons_of_mem _ hm))

theorem mapSet_keys_lt {β : Type} (m : List (Nat × β)) (k : Nat) (v : β) (n : Nat)
    (hm : ∀ kv ∈ m, kv.1 < n) (hk : k < n) :
    ∀ kv ∈ Cmd.mapSet m k v, kv.1 < n := by
  induction m with
  | nil =>
    intro kv hkv
    simp only [Cmd.mapSet, List.mem_singleton] at hkv
    rw [hkv]; exact hk
  | cons kv1 rest ih =>
    intro kv hkv
    cases kv1 with
    | mk k1 v1 =>
      by_cases h1 : k1 = k
      · subst h1
        simp only [Cmd.mapSet, if_pos rfl] at hkv
        cases hkv with
        | head => exact hk
        | tail _ htl => exact hm _ (List.mem_cons_of_mem _ htl)
      · simp only [Cmd.mapSet, if_neg h1] at hkv
        cases hkv with
        | head => exact hm _ (List.mem_cons_self _ _)
        | tail _ htl =>
          exact ih (fun kv2 hm2 => hm _ (List.mem_cons_of_mem _ hm2)) _ htl

theorem heapWfB_eq_true_iff (h : McpHeap.Heap) :
    McpHeap.heapWfB h = true ↔ ∀ kv ∈ h.mem, kv.1 < h.next := by
  simp [McpHeap.heapWfB, List.all_eq_true]

theorem Heap_lookup_alloc_lt (h : McpHeap.Heap) (c : McpHeap.HCell) (a : Nat)
    (ha : a < h.next) : (h.alloc c).1.lookup a = h.lookup a :=
  lookup_append_sing_ne h.mem h.next a c (fun he => absurd (he ▸ ha) (lt_irrefl _))

theorem lookup_append_sing_self {β : Type} (m : List (Nat × β)) (k : Nat) (v : β)
    (hnone : List.lookup k m = none) : List.lookup k (m ++ [(k, v)]) = some v := by
  induction m with
  | nil => simp [List.lookup]
  | cons kv rest ih =>
    cases kv with
    | mk k1 v1 =>
      simp only [List.lookup] at hnone
      simp only [List.cons_append, List.lookup]
      cases hbe : (k == k1) with
      | true => rw [hbe] at hnone; simp at hnone
      | false =>
        rw [hbe] at hnone
        exact ih hnone

theorem Heap_lookup_alloc_self (h : McpHeap.Heap) (c : McpHeap.HCell)
    (hwf : McpHeap.heapWfB h = true) : (h.alloc c).1.lookup h.next = some c :=
  lookup_append_sing_self h.mem h.next c
    (lookup_none_of_keys_lt h.mem h.next ((heapWfB_eq_true_iff h).mp hwf))

theorem heapWfB_alloc (h : McpHeap.Heap) (c : McpHeap.HCell)
    (hwf : McpHeap.heapWfB h = true) : McpHeap.heapWfB (h.alloc c).1 = true := by
  rw [heapWfB_eq_true_iff] at hwf ⊢
  intro kv hkv
  rcases List.mem_append.mp hkv with hm | hm
  · exact Nat.lt_succ_of_lt (hwf kv hm)
  · rw [List.mem_singleton.mp hm]
    exact Nat.lt_succ_self _

theorem heapWfB_write (h : McpHeap.Heap) (k : Nat) (c : McpHeap.HCell)
    (hk : k < h.next) (hwf : McpHeap.heapWfB h = true) :
    McpHeap.heapWfB (h.write k c) = true := by
  rw [heapWfB_eq_true_iff] at hwf ⊢
  exact mapSet_keys_lt h.mem k c h.next hwf hk

theorem Heap_lookup_write_ne (h : McpHeap.Heap) (k a : Nat) (c : McpHeap.HCell)
    (hne : ¬ a = k) : (h.write k c).lookup a = h.lookup a :=
  lookup_mapSet_ne h.mem k a c hne

theorem Heap_lookup_write_self (h : McpHeap.Heap) (k : Nat) (c : McpHeap.HCell) :
    (h.write k c).lookup k = some c :=
  lookup_mapSet_self h.mem k c

/-- Reading a well-formed source descriptor only touches addresses below
`h.next`, so any heap agreeing there denotes it identically. -/
theorem denoteTool_frame (h h2 : McpHeap.Heap) (a : Nat)
    (hf : ∀ x, x < h.next → h2.lookup x = h.lookup x)
    (hwf : McpHeap.toolWfB h a = true) :
    McpHeap.denoteTool h2 a = McpHeap.denoteTool h a := by
  unfold McpHeap.toolWfB at hwf
  rw [Bool.and_eq_true, decide_eq_true_iff] at hwf
  obtain ⟨ha, hcell⟩ := hwf
  cases hc : h.lookup a with
  | none => rw [hc] at hcell; simp at hcell
  | some cell =>
    rw [hc] at hcell
    cases cell with
    | specCell n => simp at hcell
    | toolCell sp =>
      cases sp with
      | none => simp [McpHeap.denoteTool, hf a ha, hc]
      | some sa =>
        rw [Bool.and_eq_true, decide_eq_true_iff] at hcell
        obtain ⟨hsa, _⟩ := hcell
        simp [McpHeap.denoteTool, hf a ha, hf sa hsa, hc]

/-- Well-formedness of a source descriptor transports along agreement
below `h.next` into a larger heap. -/
theorem toolWfB_frame (h h2 : McpHeap.Heap) (a : Nat)
    (hf : ∀ x, x < h.next → h2.lookup x = h.lookup x)
    (hnext : h.next ≤ h2.next)
    (hwf : McpHeap.toolWfB h a = true) : McpHeap.toolWfB h2 a = true := by
  unfold McpHeap.toolWfB at hwf ⊢
  rw [Bool.and_eq_true, decide_eq_true_iff] at hwf
  obtain ⟨ha, hcell⟩ := hwf
  rw [Bool.and_eq_true, decide_eq_true_iff]
  refine ⟨lt_of_lt_of_le ha hnext, ?_⟩
  rw [hf a ha]
  cases hc : h.lookup a with
  | none => rw [hc] at hcell; simp at hcell
  | some cell =>
    rw [hc] at hcell
    cases cell with
    | specCell n => simp at hcell
    | toolCell sp =>
      cases sp with
      | none => rfl
      | some sa =>
        rw [Bool.and_eq_true, decide_eq_true_iff] at hcell
        obtain ⟨hsa, hs⟩ := hcell
        rw [Bool.and_eq_true, decide_eq_true_iff]
        exact ⟨lt_of_lt_of_le hsa hnext, by rw [hf sa hsa]; exact hs⟩

/-- `clonedOk` transports along agreement below the current bound into a
larger heap, and is monotone in the lower bound. -/
theorem clonedOk_frame (lo : Nat) (h h2 : McpHeap.Heap) (b : Nat)
    (hf : ∀ x, x < h.next → h2.lookup x = h.lookup x)
    (hnext : h.next ≤ h2.next)
    (hok : McpHeap.clonedOk lo h b) : McpHeap.clonedOk lo h2 b := by
  obtain ⟨hlo, hb, hcell⟩ := hok
  refine ⟨hlo, lt_of_lt_of_le hb hnext, ?_⟩
  rw [hf b hb]
  cases hc : h.lookup b with
  | none => rw [hc] at hcell; exact hcell.elim
  | some cell =>
    rw [hc] at hcell
    cases cell with
    | specCell n => exact hcell.elim
    | toolCell sp =>
      cases sp with
      | none => trivial
      | some sb =>
        obtain ⟨hsl, hsb, n, hsc⟩ := hcell
        exact ⟨hsl, lt_of_lt_of_le hsb hnext, n, by rw [hf sb hsb]; exact hsc⟩

theorem clonedOk_mono (lo lo2 : Nat) (h : McpHeap.Heap) (b : Nat)
    (hle : lo2 ≤ lo) (hok : McpHeap.clonedOk lo h b) : McpHeap.clonedOk lo2 h b := by
  obtain ⟨hlo, hb, hcell⟩ := hok
  refine ⟨le_trans hle hlo, hb, ?_⟩
  cases hc : h.lookup b with
  | none => rw [hc] at hcell; exact hcell.elim
  | some cell =>
    rw [hc] at hcell
    cases cell with
    | specCell n => exact hcell.elim
    | toolCell sp =>
      cases sp with
      | none => trivial
      | some sb =>
        obtain ⟨hsl, hsb, n, hsc⟩ := hcell
        exact ⟨le_trans hle hsl, hsb, n, hsc⟩

/-- Reading a cloned descriptor only touches addresses below `h.next`. -/
theorem denoteTool_frame_cloned (lo : Nat) (h h2 : McpHeap.Heap) (b : Nat)
    (hf : ∀ x, x < h.next → h2.lookup x = h.lookup x)
    (hok : McpHeap.clonedOk lo h b) :
    McpHeap.denoteTool h2 b = McpHeap.denoteTool h b := by
  obtain ⟨_, hb, hcell⟩ := hok
  cases hc : h.lookup b with
  | none => rw [hc] at hcell; exact hcell.elim
  | some cell =>
    rw [hc] at hcell
    cases cell with
    | specCell n => exact hcell.elim
    | toolCell sp =>
      cases sp with
      | none => simp [McpHeap.denoteTool, hf b hb, hc]
      | some sb =>
        obtain ⟨_, hsb, n, hsc⟩ := hcell
        simp [McpHeap.denoteTool, hf b hb, hf sb hsb, hc]

theorem forall₂_congr_left {α β : Type} {R S : α → β → Prop}
    {as : List α} {bs : List β}
    (h : List.Forall₂ R as bs) (hi : ∀ a ∈ as, ∀ b, R a b → S a b) :
    List.Forall₂ S as bs := by
  induction h with
  | nil => exact List.Forall₂.nil
  | cons hr ht ih =>
    exact List.Forall₂.cons (hi _ (List.mem_cons_self _ _) _ hr)
      (ih (fun a ha b => hi a (List.mem_cons_of_mem _ ha) b))

theorem Heap_alloc_snd (h : McpHeap.Heap) (c : McpHeap.HCell) :
    (h.alloc c).2 = h.next := rfl

theorem Heap_alloc_next (h : McpHeap.Heap) (c : McpHeap.HCell) :
    (h.alloc c).1.next = h.next + 1 := rfl

/-- One clone step: fresh region, frame below `h.next`, well-formedness,
clone shape, and the denotation law. -/
theorem processTool_spec (h : McpHeap.Heap) (a : Nat)
    (hwf : McpHeap.heapWfB h = true) (ha : McpHeap.toolWfB h a = true) :
    h.next ≤ (McpHeap.processTool h a).1.next ∧
    McpHeap.heapWfB (McpHeap.processTool h a).1 = true ∧
    (∀ x, x < h.next → (McpHeap.processTool h a).1.lookup x = h.lookup x) ∧
    McpHeap.clonedOk h.next (McpHeap.processTool h a).1 (McpHeap.processTool h a).2 ∧
    McpHeap.denoteTool (McpHeap.processTool h a).1 (McpHeap.processTool h a).2 =
      McpHeap.clonedDenote (McpHeap.denoteTool h a) := by
  unfold McpHeap.toolWfB at ha
  rw [Bool.and_eq_true, decide_eq_true_iff] at ha
  obtain ⟨halt, hcell⟩ := ha
  cases hc : h.lookup a with
  | none => rw [hc] at hcell; simp at hcell
  | some cell =>
    rw [hc] at hcell
    cases cell with
    | specCell n => simp at hcell
    | toolCell sp =>
      cases sp with
      | none =>
        have hb : (h.alloc (McpHeap.HCell.toolCell none)).1.lookup h.next =
            some (.toolCell none) := Heap_lookup_alloc_self h _ hwf
        have hred : McpHeap.processTool h a =
            ((h.alloc (.toolCell none)).1, h.next) := by
          simp only [McpHeap.processTool, McpHeap.cloneTool, hc, Heap_alloc_snd]
          simp only [McpHeap.renameCloned, hb]
        rw [hred]
        refine ⟨Nat.le_succ _, heapWfB_alloc h _ hwf,
          fun x hx => Heap_lookup_alloc_lt h _ x hx, ?_, ?_⟩
        · exact ⟨le_refl _, Nat.lt_succ_self _, by rw [hb]; trivial⟩
        · simp [McpHeap.denoteTool, hb, hc, McpHeap.clonedDenote]
      | some sa =>
        rw [Bool.and_eq_true, decide_eq_true_iff] at hcell
        obtain ⟨hsa, hspec⟩ := hcell
        cases hs : h.lookup sa with
        | none => rw [hs] at hspec; simp at hspec
        | some scell =>
          rw [hs] at hspec
          cases scell with
          | toolCell sp2 => simp at hspec
          | specCell n =>
            -- the two allocations of the clone
            have hA_self : (h.alloc (McpHeap.HCell.specCell n)).1.lookup h.next =
                some (.specCell n) := Heap_lookup_alloc_self h _ hwf
            have hwfA : McpHeap.heapWfB (h.alloc (.specCell n)).1 = true :=
              heapWfB_alloc h _ hwf
            have hB_b : ((h.alloc (McpHeap.HCell.specCell n)).1.alloc
                (McpHeap.HCell.toolCell (some h.next))).1.lookup (h.next + 1) =
                some (.toolCell (some h.next)) :=
              Heap_lookup_alloc_self (h.alloc (.specCell n)).1 _ hwfA
            have hB_s : ((h.alloc (McpHeap.HCell.specCell n)).1.alloc
                (McpHeap.HCell.toolCell (some h.next))).1.lookup h.next =
                some (.specCell n) := by
              rw [Heap_lookup_alloc_lt (h.alloc (.specCell n)).1 _ h.next
                (Nat.lt_succ_self _)]
              exact hA_self
            have hwfB : McpHeap.heapWfB ((h.alloc (.specCell n)).1.alloc
                (.toolCell (some h.next))).1 = true :=
              heapWfB_alloc (h.alloc (.specCell n)).1 _ hwfA
            have hframeB : ∀ x, x < h.next →
                ((h.alloc (McpHeap.HCell.specCell n)).1.alloc
                  (McpHeap.HCell.toolCell (some h.next))).1.lookup x = h.lookup x := by
              intro x hx
              rw [Heap_lookup_alloc_lt (h.alloc (.specCell n)).1 _ x
                (Nat.lt_succ_of_lt hx)]
              exact Heap_lookup_alloc_lt h _ x hx
            have hclone : McpHeap.cloneTool h a =
                (((h.alloc (.specCell n)).1.alloc (.toolCell (some h.next))).1,
                 h.next + 1) := by
              simp only [McpHeap.cloneTool, hc, hs, Heap_alloc_snd,
                Heap_alloc_next, Prod.mk.eta]
              rfl
            cases n with
            | none =>
              have hred : McpHeap.processTool h a =
                  (((h.alloc (.specCell none)).1.alloc (.toolCell (some h.next))).1,
                   h.next + 1) := by
                simp only [McpHeap.processTool, hclone]
                simp only [McpHeap.renameCloned, hB_b, hB_s]
              rw [hred]
              refine ⟨Nat.le_succ_of_le (Nat.le_succ _), hwfB, hframeB, ?_, ?_⟩
              · refine ⟨Nat.le_succ _, Nat.lt_succ_self _, ?_⟩
                rw [hB_b]
                exact ⟨le_refl _, Nat.lt_succ_of_lt (Nat.lt_succ_self _), none, hB_s⟩
              · simp [McpHeap.denoteTool, hB_b, hB_s, hc, hs, McpHeap.clonedDenote]
            | some s =>
              by_cases hse : s = ""
              · subst hse
                have hred : McpHeap.processTool h a =
                    (((h.alloc (.specCell (some ""))).1.alloc
                        (.toolCell (some h.next))).1, h.next + 1) := by
                  simp only [McpHeap.processTool, hclone]
                  simp only [McpHeap.renameCloned, hB_b, hB_s]
                  simp
                rw [hred]
                refine ⟨Nat.le_succ_of_le (Nat.le_succ _), hwfB, hframeB, ?_, ?_⟩
                · refine ⟨Nat.le_succ _, Nat.lt_succ_self _, ?_⟩
                  rw [hB_b]
                  exact ⟨le_refl _, Nat.lt_succ_of_lt (Nat.lt_succ_self _), some "", hB_s⟩
                · simp [McpHeap.denoteTool, hB_b, hB_s, hc, hs, McpHeap.clonedDenote]
              · have hred : McpHeap.processTool h a =
                    ((((h.alloc (.specCell (some s))).1.alloc
                        (.toolCell (some h.next))).1.write h.next
                        (.specCell (some ("mcp_" ++ s)))), h.next + 1) := by
                  simp only [McpHeap.processTool, hclone]
                  simp only [McpHeap.renameCloned, hB_b, hB_s]
                  rw [if_pos hse]
                rw [hred]
                have hC_b : ((((h.alloc (.specCell (some s))).1.alloc
                    (.toolCell (some h.next))).1.write h.next
                    (.specCell (some ("mcp_" ++ s)))).lookup (h.next + 1)) =
                    some (.toolCell (some h.next)) := by
                  rw [Heap_lookup_write_ne _ _ _ _ (Nat.succ_ne_self h.next)]
                  exact hB_b
                have hC_s : ((((h.alloc (.specCell (some s))).1.alloc
                    (.toolCell (some h.next))).1.write h.next
                    (.specCell (some ("mcp_" ++ s)))).lookup h.next) =
                    some (.specCell (some ("mcp_" ++ s))) :=
                  Heap_lookup_write_self _ _ _
                refine ⟨Nat.le_succ_of_le (Nat.le_succ _),
                  heapWfB_write _ _ _ (Nat.lt_succ_of_lt (Nat.lt_succ_self _)) hwfB,
                  ?_, ?_, ?_⟩
                · intro x hx
                  rw [Heap_lookup_write_ne _ _ _ _
                    (fun he => absurd (he ▸ hx) (lt_irrefl _))]
                  exact hframeB x hx
                · refine ⟨Nat.le_succ _, Nat.lt_succ_self _, ?_⟩
                  rw [hC_b]
                  exact ⟨le_refl _, Nat.lt_succ_of_lt (Nat.lt_succ_self _),
                    some ("mcp_" ++ s), hC_s⟩
                · simp [McpHeap.denoteTool, hC_b, hC_s, hc, hs,
                    McpHeap.clonedDenote, hse]

/-- The clone loop over a list of source descriptors: the source region is
untouched, the clones live in the fresh region, and each clone denotes the
namespaced copy of its source. -/
theorem processTools_spec (as : List Nat) (h : McpHeap.Heap)
    (hwf : McpHeap.heapWfB h = true)
    (has : ∀ a ∈ as, McpHeap.toolWfB h a = true) :
    h.next ≤ (McpHeap.processTools h as).1.next ∧
    McpHeap.heapWfB (McpHeap.processTools h as).1 = true ∧
    (∀ x, x < h.next → (McpHeap.processTools h as).1.lookup x = h.lookup x) ∧
    (∀ b ∈ (McpHeap.processTools h as).2,
      McpHeap.clonedOk h.next (McpHeap.processTools h as).1 b) ∧
    List.Forall₂ (fun a b =>
        McpHeap.denoteTool (McpHeap.processTools h as).1 b =
          McpHeap.clonedDenote (McpHeap.denoteTool h a))
      as (McpHeap.processTools h as).2 := by
  induction as generalizing h with
  | nil =>
    refine ⟨le_refl _, hwf, fun x _ => rfl, ?_, List.Forall₂.nil⟩
    intro b hb
    simp [McpHeap.processTools] at hb
  | cons a as ih =>
    have ha := has a (List.mem_cons_self _ _)
    obtain ⟨hn1, hw1, hf1, hok1, hd1⟩ := processTool_spec h a hwf ha
    have has1 : ∀ x ∈ as, McpHeap.toolWfB (McpHeap.processTool h a).1 x = true :=
      fun x hx => toolWfB_frame h _ x hf1 hn1 (has x (List.mem_cons_of_mem _ hx))
    obtain ⟨hn2, hw2, hf2, hok2, hd2⟩ := ih (McpHeap.processTool h a).1 hw1 has1
    have hunf : McpHeap.processTools h (a :: as) =
        ((McpHeap.processTools (McpHeap.processTool h a).1 as).1,
         (McpHeap.processTool h a).2 ::
           (McpHeap.processTools (McpHeap.processTool h a).1 as).2) := rfl
    rw [hunf]
    refine ⟨le_trans hn1 hn2, hw2, ?_, ?_, ?_⟩
    · intro x hx
      rw [hf2 x (lt_of_lt_of_le hx hn1)]
      exact hf1 x hx
    · intro b hb
      cases hb with
      | head =>
        exact clonedOk_frame h.next (McpHeap.processTool h a).1 _ _ hf2 hn2 hok1
      | tail _ hb2 =>
        exact clonedOk_mono _ _ _ _ hn1 (hok2 b hb2)
    · refine List.Forall₂.cons ?_ ?_
      · rw [denoteTool_frame_cloned h.next (McpHeap.processTool h a).1 _ _ hf2 hok1]
        exact hd1
      · refine forall₂_congr_left hd2 ?_
        intro x hx b hRb
        rw [hRb,
          denoteTool_frame h (McpHeap.processTool h a).1 x hf1
            (has x (List.mem_cons_of_mem _ hx))]

/-- C9: the descriptors returned by `getMcpToolSpecs` are deep copies in a
fresh address region, each carrying the `mcp_` namespacing on a nonempty
name (the `clonedDenote` law); writing through any address reachable from
the returned structure changes neither the registry's own descriptors nor
what a subsequent `getMcpToolSpecs` call returns. -/
theorem C9_deep_copy_isolation
    (h : McpHeap.Heap) (clients : List (List Nat))
    (hwf : McpHeap.heapWfB h = true)
    (hts : ∀ a ∈ clients.flatten, McpHeap.toolWfB h a = true) :
    List.Forall₂ (fun a b =>
        McpHeap.denoteTool (McpHeap.getMcpToolSpecsH h clients).1 b =
          McpHeap.clonedDenote (McpHeap.denoteTool h a))
      clients.flatten (McpHeap.getMcpToolSpecsH h clients).2 ∧
    (∀ m ∈ McpHeap.reachableFrom (McpHeap.getMcpToolSpecsH h clients).1
        (McpHeap.getMcpToolSpecsH h clients).2, ∀ c,
      (∀ a ∈ clients.flatten,
        McpHeap.denoteTool ((McpHeap.getMcpToolSpecsH h clients).1.write m c) a =
          McpHeap.denoteTool h a) ∧
      List.Forall₂ (fun a b =>
          McpHeap.denoteTool (McpHeap.getMcpToolSpecsH
              ((McpHeap.getMcpToolSpecsH h clients).1.write m c) clients).1 b =
            McpHeap.clonedDenote (McpHeap.denoteTool h a))
        clients.flatten
        (McpHeap.getMcpToolSpecsH
            ((McpHeap.getMcpToolSpecsH h clients).1.write m c) clients).2) := by
  simp only [McpHeap.getMcpToolSpecsH]
  obtain ⟨hn, hw, hf, hok, hd⟩ := processTools_spec clients.flatten h hwf hts
  refine ⟨hd, ?_⟩
  intro m hm c
  have hmb : h.next ≤ m ∧ m < (McpHeap.processTools h clients.flatten).1.next := by
    rcases List.mem_append.mp hm with hm1 | hm1
    · exact ⟨(hok m hm1).1, (hok m hm1).2.1⟩
    · rcases List.mem_filterMap.mp hm1 with ⟨b, hb, hsp⟩
      obtain ⟨_, hblt, hshape⟩ := hok b hb
      unfold McpHeap.specPtr at hsp
      cases hcb : (McpHeap.processTools h clients.flatten).1.lookup b with
      | none => rw [hcb] at hsp hshape; exact hshape.elim
      | some cell =>
        rw [hcb] at hsp hshape
        cases cell with
        | specCell nn => exact hshape.elim
        | toolCell sp =>
          cases sp with
          | none => simp at hsp
          | some sb =>
            obtain ⟨hsl, hsb, _, _⟩ := hshape
            have hmsb : m = sb := by simpa using hsp.symm
            rw [hmsb]
            exact ⟨hsl, hsb⟩
  have hfw : ∀ x, x < h.next →
      ((McpHeap.processTools h clients.flatten).1.write m c).lookup x = h.lookup x := by
    intro x hx
    rw [Heap_lookup_write_ne _ m x c
      (fun he : x = m => absurd (he ▸ hx) (not_lt.mpr hmb.1))]
    exact hf x hx
  have hww : McpHeap.heapWfB ((McpHeap.processTools h clients.flatten).1.write m c) = true :=
    heapWfB_write _ m c hmb.2 hw
  have hts2 : ∀ a ∈ clients.flatten,
      McpHeap.toolWfB ((McpHeap.processTools h clients.flatten).1.write m c) a = true :=
    fun a haX => toolWfB_frame h _ a hfw hn (hts a haX)
  obtain ⟨_, _, _, _, hd2⟩ := processTools_spec clients.flatten _ hww hts2
  refine ⟨fun a haX => denoteTool_frame h _ a hfw (hts a haX), ?_⟩
  refine forall₂_congr_left hd2 ?_
  intro x hx b hRb
  rw [hRb, denoteTool_frame h _ x hfw (hts x hx)]

/-- C9 witness: one client advertising one tool named `search`, stored at
address 1 with its spec object at address 0. -/
theorem C9_witness :
    List.Forall₂ (fun a b =>
        McpHeap.denoteTool (McpHeap.getMcpToolSpecsH
            ⟨[(0, .specCell (some "search")), (1, .toolCell (some 0))], 2⟩ [[1]]).1 b =
          McpHeap.clonedDenote (McpHeap.denoteTool
            ⟨[(0, .specCell (some "search")), (1, .toolCell (some 0))], 2⟩ a))
      [[1]].flatten (McpHeap.getMcpToolSpecsH
        ⟨[(0, .specCell (some "search")), (1, .toolCell (some 0))], 2⟩ [[1]]).2 ∧
    (∀ m ∈ McpHeap.reachableFrom
        (McpHeap.getMcpToolSpecsH
          ⟨[(0, .specCell (some "search")), (1, .toolCell (some 0))], 2⟩ [[1]]).1
        (McpHeap.getMcpToolSpecsH
          ⟨[(0, .specCell (some "search")), (1, .toolCell (some 0))], 2⟩ [[1]]).2, ∀ c,
      (∀ a ∈ [[1]].flatten,
        McpHeap.denoteTool ((McpHeap.getMcpToolSpecsH
            ⟨[(0, .specCell (some "search")), (1, .toolCell (some 0))], 2⟩ [[1]]).1.write m c) a =
          McpHeap.denoteTool
            ⟨[(0, .specCell (some "search")), (1, .toolCell (some 0))], 2⟩ a) ∧
      List.Forall₂ (fun a b =>
          McpHeap.denoteTool (McpHeap.getMcpToolSpecsH
              ((McpHeap.getMcpToolSpecsH
                ⟨[(0, .specCell (some "search")), (1, .toolCell (some 0))], 2⟩ [[1]]).1.write m c)
              [[1]]).1 b =
            McpHeap.clonedDenote (McpHeap.denoteTool
              ⟨[(0, .specCell (some "search")), (1, .toolCell (some 0))], 2⟩ a))
        [[1]].flatten
        (McpHeap.getMcpToolSpecsH
            ((McpHeap.getMcpToolSpecsH
              ⟨[(0, .specCell (some "search")), (1, .toolCell (some 0))], 2⟩ [[1]]).1.write m c)
            [[1]]).2) :=
  C9_deep_copy_isolation
    ⟨[(0, .specCell (some "search")), (1, .toolCell (some 0))], 2⟩ [[1]]
    (by decide) (by decide)
